import Mathlib

/-!
# Wordle solver: constraint state, pruning and minimax selection

A shallow embedding of `src/main.cpp`.

* C arrays of fixed size are functions out of `Fin n`; `letter_indices` holds
  values in `Fin 26`, the range established by the constructor's assertion
  `(ch >= 'A') && (ch <= 'Z')`.
* `std::uint32_t` masks are natural numbers below `2 ^ 32`; `~x` is
  `x ^^^ 0xFFFFFFFF`.
* The `int` counters of `game_state::letter_counts` and of `apply` are natural
  numbers: they are only ever assigned `0`, `WORD_LENGTH`, or a counter that
  starts at `0` and is incremented at most `WORD_LENGTH` times.
* The globals `dictionary` and `dictionary_size` are the two fields of `store`,
  passed explicitly through every function that touches them.
* A run that would read a vector out of range, divide by zero or exhaust the
  fuel of the pruning loop ends in `Except.error`.
-/

namespace WordleSolver

/-- Ways a run can fail to produce a value. -/
inductive fault where
  | out_of_range
  | division_by_zero
  | out_of_fuel
  deriving DecidableEq, Repr

deriving instance DecidableEq for Except

/-- Modulus of `std::size_t` arithmetic (64-bit target). -/
def SIZE_MOD : Nat := 2 ^ 64

/-- The value `std::numeric_limits<std::size_t>::max()`. -/
def SIZE_MAX : Nat := 2 ^ 64 - 1

/-- Bitwise complement of a `std::uint32_t`. -/
def not32 (x : Nat) : Nat := x ^^^ 0xFFFFFFFF

/-- The positions `0 .. WORD_LENGTH - 1` of a word, in the order in which the
loops `for (i = 0; i < WORD_LENGTH; ++i)` visit them. -/
def positions : List (Fin 5) := [0, 1, 2, 3, 4]

/-- The struct `dictionary_entry` (word length 5). -/
structure dictionary_entry where
  letter_indices : Fin 5 → Fin 26
  letter_masks : Fin 5 → Nat
  letter_counts : Fin 26 → Nat
  deriving DecidableEq

/-- One iteration of the constructor loop of `dictionary_entry`, for the
character with index `ch - 'A'` at position `i`. -/
def dictionary_entry.ctor_step (str : Fin 5 → Fin 26) (e : dictionary_entry) (i : Fin 5) :
    dictionary_entry :=
  let letter_indices := Function.update e.letter_indices i (str i)
  let letter_masks := Function.update e.letter_masks i (1 <<< (letter_indices i).val)
  let letter_counts :=
    Function.update e.letter_counts (letter_indices i) (e.letter_counts (letter_indices i) + 1)
  ⟨letter_indices, letter_masks, letter_counts⟩

/-- The constructor `dictionary_entry(std::string_view)` on a string that meets
its assertions: five characters, each in `'A'..'Z'`, given by `ch - 'A'`. -/
def dictionary_entry.ctor (str : Fin 5 → Fin 26) : dictionary_entry :=
  positions.foldl (dictionary_entry.ctor_step str)
    ⟨fun _ => 0, fun _ => 0, fun _ => 0⟩

/-- The enum `letter_result`. -/
inductive letter_result where
  | incorrect
  | incorrect_location
  | correct
  deriving DecidableEq, Repr, Fintype

/-- The conversion `static_cast<letter_result>(a)` for `a` in `0..2`. -/
def letter_result.cast : Nat → letter_result
  | 0 => .incorrect
  | 1 => .incorrect_location
  | _ => .correct

/-- The struct `game_state`; `letter_counts` holds the pairs `(first, second)`. -/
structure game_state where
  letter_masks : Fin 5 → Nat
  letter_counts : Fin 26 → Nat × Nat
  deriving DecidableEq

/-- The constructor `game_state()`. -/
def game_state.init : game_state :=
  ⟨fun _ => (1 <<< 26) - 1, fun _ => (0, 5)⟩

/-- The globals `dictionary` and `dictionary_size`. -/
structure store where
  dictionary : List dictionary_entry
  dictionary_size : Nat
  deriving DecidableEq

/-- The function `word_fits_requirements`: two loops, each leaving with
`false` at the first violation. -/
def word_fits_requirements (entry : dictionary_entry) (state : game_state) : Bool :=
  if positions.any
      (fun i => entry.letter_masks i &&& state.letter_masks i == 0) then false
  else if (List.finRange 26).any
      (fun i => decide (entry.letter_counts i < (state.letter_counts i).1) ||
        decide (entry.letter_counts i > (state.letter_counts i).2)) then false
  else true

/-- The loop of `prune_dictionary`, started at index `i` with counter `result`.
Every iteration lowers `dictionary_size - i` by one; the first argument bounds
the number of iterations. -/
def prune_loop (state : game_state) (actuallyRemove : Bool) :
    Nat → List dictionary_entry → Nat → Nat → Nat → Except fault (Nat × store)
  | 0, dictionary, dictionary_size, i, result =>
    if i < dictionary_size then .error .out_of_fuel
    else .ok (result, ⟨dictionary, dictionary_size⟩)
  | fuel + 1, dictionary, dictionary_size, i, result =>
    if i < dictionary_size then
      match dictionary[i]? with
      | none => .error .out_of_range
      | some entry =>
        if !word_fits_requirements entry state then
          if actuallyRemove then
            match dictionary[dictionary_size - 1]? with
            | none => .error .out_of_range
            | some last =>
              prune_loop state actuallyRemove fuel
                ((dictionary.set i last).set (dictionary_size - 1) entry)
                (dictionary_size - 1) i (result + 1)
          else
            prune_loop state actuallyRemove fuel dictionary dictionary_size (i + 1) (result + 1)
        else
          prune_loop state actuallyRemove fuel dictionary dictionary_size (i + 1) result
    else .ok (result, ⟨dictionary, dictionary_size⟩)

/-- The function `prune_dictionary`: the returned count and the store it leaves. -/
def prune_dictionary (state : game_state) (actuallyRemove : Bool) (st : store) :
    Except fault (Nat × store) :=
  prune_loop state actuallyRemove st.dictionary_size st.dictionary st.dictionary_size 0 0

/-- The variables that the loop of `apply` updates. -/
structure apply_locals where
  state : game_state
  letterCounts : Fin 26 → Nat
  reachedMaxLetters : Fin 26 → Bool

/-- The `switch` inside the loop of `apply`. -/
def apply_switch (entry : dictionary_entry) (feedback : Fin 5 → letter_result)
    (ls : apply_locals) (i : Fin 5) : apply_locals :=
  let letterIndex := entry.letter_indices i
  let letterMask := entry.letter_masks i
  match feedback i with
  | .incorrect =>
    { ls with
      state := { ls.state with
        letter_masks :=
          Function.update ls.state.letter_masks i (ls.state.letter_masks i &&& not32 letterMask) }
      reachedMaxLetters := Function.update ls.reachedMaxLetters letterIndex true }
  | .incorrect_location =>
    { ls with
      state := { ls.state with
        letter_masks :=
          Function.update ls.state.letter_masks i (ls.state.letter_masks i &&& not32 letterMask) }
      letterCounts := Function.update ls.letterCounts letterIndex (ls.letterCounts letterIndex + 1) }
  | .correct =>
    { ls with
      state := { ls.state with
        letter_masks := Function.update ls.state.letter_masks i letterMask }
      letterCounts := Function.update ls.letterCounts letterIndex (ls.letterCounts letterIndex + 1) }

/-- The first `if` after the `switch`: overwrite the upper bound. -/
def apply_set_max (entry : dictionary_entry) (ls : apply_locals) (i : Fin 5) : apply_locals :=
  let letterIndex := entry.letter_indices i
  if ls.reachedMaxLetters letterIndex then
    { ls with
      state := { ls.state with
        letter_counts := Function.update ls.state.letter_counts letterIndex
          ((ls.state.letter_counts letterIndex).1, ls.letterCounts letterIndex) } }
  else ls

/-- The second `if` after the `switch`: raise the lower bound. -/
def apply_set_min (entry : dictionary_entry) (ls : apply_locals) (i : Fin 5) : apply_locals :=
  let letterIndex := entry.letter_indices i
  if ls.letterCounts letterIndex > (ls.state.letter_counts letterIndex).1 then
    { ls with
      state := { ls.state with
        letter_counts := Function.update ls.state.letter_counts letterIndex
          (ls.letterCounts letterIndex, (ls.state.letter_counts letterIndex).2) } }
  else ls

/-- One iteration of the loop of `apply`. -/
def apply_step (entry : dictionary_entry) (feedback : Fin 5 → letter_result)
    (ls : apply_locals) (i : Fin 5) : apply_locals :=
  apply_set_min entry (apply_set_max entry (apply_switch entry feedback ls i) i) i

/-- The function `apply`. -/
def apply (state : game_state) (entry : dictionary_entry) (feedback : Fin 5 → letter_result) :
    game_state :=
  (positions.foldl (apply_step entry feedback)
    ⟨state, fun _ => 0, fun _ => false⟩).state

/-- A loop `for (int a = 0; a < 3; ++a)` over a fallible body. -/
def for3 {σ : Type} (body : Nat → σ → Except fault σ) (s : σ) : Except fault σ :=
  match body 0 s with
  | .error e => .error e
  | .ok s1 =>
    match body 1 s1 with
    | .error e => .error e
    | .ok s2 => body 2 s2

/-- The innermost body of `word_min_removed`; `acc` is `result` and the store. -/
def word_min_removed_body (state : game_state) (entry : dictionary_entry)
    (results : Fin 5 → letter_result) (acc : Nat × store) : Except fault (Nat × store) :=
  let tempState := apply state entry results
  match prune_dictionary tempState false acc.2 with
  | .error e => .error e
  | .ok (wouldRemove, st) => .ok (if wouldRemove < acc.1 then wouldRemove else acc.1, st)

/-- The function `word_min_removed`. The array `results` starts uninitialised in
the source and all five slots are written before the first read. -/
def word_min_removed (state : game_state) (entry : dictionary_entry) (st : store) :
    Except fault (Nat × store) :=
  let results : Fin 5 → letter_result := fun _ => .incorrect
  for3 (fun a0 acc =>
    let results := Function.update results 0 (letter_result.cast a0)
    for3 (fun a1 acc =>
      let results := Function.update results 1 (letter_result.cast a1)
      for3 (fun a2 acc =>
        let results := Function.update results 2 (letter_result.cast a2)
        for3 (fun a3 acc =>
          let results := Function.update results 3 (letter_result.cast a3)
          for3 (fun a4 acc =>
            let results := Function.update results 4 (letter_result.cast a4)
            word_min_removed_body state entry results acc) acc) acc) acc) acc)
    (SIZE_MAX, st)

/-- The loop `for (; start < end; ++start)` of one worker thread, over the
indices it visits; `acc` is `(result, mostRemoved)`. -/
def worker_loop (state : game_state) :
    List Nat → Nat × Nat → store → Except fault ((Nat × Nat) × store)
  | [], acc, st => .ok (acc, st)
  | start :: rest, acc, st =>
    match st.dictionary[start]? with
    | none => .error .out_of_range
    | some entry =>
      match word_min_removed state entry st with
      | .error e => .error e
      | .ok (removed, st1) =>
        worker_loop state rest (if removed > acc.2 then (start, removed) else acc) st1

/-- The body of worker thread `i`: the pair it stores in `results[i]`. -/
def worker (state : game_state) (wordsPerThread i : Nat) (st : store) :
    Except fault ((Nat × Nat) × store) :=
  let start := (wordsPerThread * i) % SIZE_MOD
  let end_ := min ((start + wordsPerThread) % SIZE_MOD) st.dictionary.length
  worker_loop state (List.range' start (end_ - start)) (0, 0) st

/-- All worker threads, run one after the other (they only read the store and
each writes its own slot of `results`). -/
def run_workers (state : game_state) (wordsPerThread : Nat) :
    List Nat → store → Except fault (List (Nat × Nat) × store)
  | [], st => .ok ([], st)
  | i :: rest, st =>
    match worker state wordsPerThread i st with
    | .error e => .error e
    | .ok (pair, st1) =>
      match run_workers state wordsPerThread rest st1 with
      | .error e => .error e
      | .ok (pairs, st2) => .ok (pair :: pairs, st2)

/-- The final loop of `select_word` over the workers' pairs. -/
def select_best (results : List (Nat × Nat)) : Nat × Nat :=
  results.foldl (fun acc pair => if pair.2 > acc.2 then pair else acc) (0, 0)

/-- The function `select_word`, for the value `threadCount` that
`std::thread::hardware_concurrency()` reports. It yields the returned index,
the printed `mostRemoved`, and the store. -/
def select_word (threadCount : Nat) (state : game_state) (st : store) :
    Except fault ((Nat × Nat) × store) :=
  if threadCount = 0 then .error .division_by_zero
  else
    let wordsPerThread :=
      ((st.dictionary.length + threadCount + (SIZE_MOD - 1)) % SIZE_MOD) / threadCount
    match run_workers state wordsPerThread (List.range threadCount) st with
    | .error e => .error e
    | .ok (results, st1) => .ok (select_best results, st1)

/-! ## Auxiliary definitions used in the statements and proofs -/

/-- The loop of `apply` run over the positions `ps` from the entry state. -/
def apply_run (S : game_state) (E : dictionary_entry) (f : Fin 5 → letter_result)
    (ps : List (Fin 5)) : apply_locals :=
  ps.foldl (apply_step E f) ⟨S, fun _ => 0, fun _ => false⟩

/-- Number of positions in `ps` holding letter `c` with Present or Correct. -/
def seen_count (E : dictionary_entry) (f : Fin 5 → letter_result) (c : Fin 26)
    (ps : List (Fin 5)) : Nat :=
  ps.countP (fun i => decide (E.letter_indices i = c ∧ f i ≠ .incorrect))

/-- Whether some position in `ps` holding letter `c` got Incorrect. -/
def seen_incorrect (E : dictionary_entry) (f : Fin 5 → letter_result) (c : Fin 26)
    (ps : List (Fin 5)) : Bool :=
  ps.any (fun i => decide (E.letter_indices i = c ∧ f i = .incorrect))

/-- The mask that one iteration of `apply` leaves at its own position `i`. -/
def mask_after (S : game_state) (E : dictionary_entry) (f : Fin 5 → letter_result)
    (i : Fin 5) : Nat :=
  match f i with
  | .incorrect => S.letter_masks i &&& not32 (E.letter_masks i)
  | .incorrect_location => S.letter_masks i &&& not32 (E.letter_masks i)
  | .correct => E.letter_masks i

/-- The number written `k_c` in the description of `apply`: how many positions
of `E` hold letter `c` and received Present-Wrong-Spot or Correct in `f`. -/
def present_count (E : dictionary_entry) (f : Fin 5 → letter_result) (c : Fin 26) : Nat :=
  (Finset.univ.filter (fun i : Fin 5 =>
    E.letter_indices i = c ∧ (f i = .incorrect_location ∨ f i = .correct))).card

/-- The word CRANE. -/
def CRANE : dictionary_entry := dictionary_entry.ctor ![2, 17, 0, 13, 4]

/-- The word SLATE. -/
def SLATE : dictionary_entry := dictionary_entry.ctor ![18, 11, 0, 19, 4]

/-- The word TRACE. -/
def TRACE : dictionary_entry := dictionary_entry.ctor ![19, 17, 0, 2, 4]

/-- The word GRAPE. -/
def GRAPE : dictionary_entry := dictionary_entry.ctor ![6, 17, 0, 15, 4]

/-- The word PLANE. -/
def PLANE : dictionary_entry := dictionary_entry.ctor ![15, 11, 0, 13, 4]

/-- The word ALARM, which holds the letter A twice. -/
def ALARM : dictionary_entry := dictionary_entry.ctor ![0, 11, 0, 17, 12]

/-- The feedback with Incorrect at every position. -/
def all_incorrect : Fin 5 → letter_result := fun _ => .incorrect

/-- The feedback with Correct at every position. -/
def all_correct : Fin 5 → letter_result := fun _ => .correct

/-- Number of entries of `l` that fail `word_fits_requirements`. -/
def misfits (state : game_state) (l : List dictionary_entry) : Nat :=
  l.countP (fun e => !word_fits_requirements e state)

/-- The logical region of a store: the entries at indices `[0, dictionary_size)`. -/
def store.region (st : store) : List dictionary_entry :=
  st.dictionary.take st.dictionary_size

/-- The feedback arrays in the order in which the five nested loops of
`word_min_removed` produce them (`a0` outermost, `a4` innermost). -/
def feedback_patterns : List (Fin 5 → letter_result) :=
  [0, 1, 2].flatMap (fun a0 => [0, 1, 2].flatMap (fun a1 => [0, 1, 2].flatMap (fun a2 =>
    [0, 1, 2].flatMap (fun a3 => [0, 1, 2].map (fun a4 =>
      Function.update (Function.update (Function.update (Function.update
        (Function.update (fun _ => letter_result.incorrect)
          0 (letter_result.cast a0)) 1 (letter_result.cast a1)) 2 (letter_result.cast a2))
          3 (letter_result.cast a3)) 4 (letter_result.cast a4))))))

/-- The update of `result` in the innermost body of `word_min_removed`, for the
feedback `f`, over the logical region `region`. -/
def min_step (S : game_state) (E : dictionary_entry) (region : List dictionary_entry)
    (result : Nat) (f : Fin 5 → letter_result) : Nat :=
  if misfits (apply S E f) region < result then misfits (apply S E f) region else result

/-- The integer that `static_cast` sends to a given `letter_result`. -/
def letter_result.code : letter_result → Nat
  | .incorrect => 0
  | .incorrect_location => 1
  | .correct => 2

/-- The store of the concrete scenario: CRANE, SLATE, TRACE, GRAPE, PLANE, all
five in the logical region. -/
def scenario_store : store := ⟨[CRANE, SLATE, TRACE, GRAPE, PLANE], 5⟩

/-- The feedback of the concrete scenario: C Incorrect, R Correct, A Incorrect,
N Incorrect, E Correct. -/
def scenario_feedback : Fin 5 → letter_result :=
  ![.incorrect, .correct, .incorrect, .incorrect, .correct]

/-- The value `word_min_removed` computes for the entry at index `i` of the
vector (`0` past its end). -/
def gain (S : game_state) (st : store) (i : Nat) : Nat :=
  match st.dictionary[i]? with
  | some e => feedback_patterns.foldl (min_step S e st.region) SIZE_MAX
  | none => 0

/-- One comparison `if (removed > mostRemoved)` of a scan, for the candidate at
index `i` with value `v i`; `acc` is `(result, mostRemoved)`. -/
def scan_step (v : Nat → Nat) (acc : Nat × Nat) (i : Nat) : Nat × Nat :=
  if v i > acc.2 then (i, v i) else acc

/-- The comparison `if (pair.second > mostRemoved)` of the final loop. -/
def merge_step (acc pair : Nat × Nat) : Nat × Nat :=
  if pair.2 > acc.2 then pair else acc

/-- Sequential first-maximum scan, as the specification words it: visit the
candidates `0 .. n - 1` in order, starting from index 0 and value 0, and move to
a candidate only when its value is strictly larger than the best so far. -/
def sequential_first_max (v : Nat → Nat) (n : Nat) : Nat × Nat :=
  (List.range n).foldl (scan_step v) (0, 0)

/-- The pair worker `i` stores, when no `size_t` operation wraps: the scan of
the indices `[w * i, min (w * i + w) len)` from `(0, 0)`. -/
def chunk_result (v : Nat → Nat) (w len i : Nat) : Nat × Nat :=
  (List.range' (w * i) (min (w * i + w) len - w * i)).foldl (scan_step v) (0, 0)

/-- The count-bound invariant for letter `c`: `min_count <= max_count <= 5`
(`0 <= min_count` holds for every natural number). -/
def count_invariant (S : game_state) (c : Fin 26) : Prop :=
  (S.letter_counts c).1 ≤ (S.letter_counts c).2 ∧ (S.letter_counts c).2 ≤ 5

/-- The store that holds the single word CRANE. -/
def crane_store : store := ⟨[CRANE], 1⟩

/-- The word WATCH. -/
def WATCH : dictionary_entry := dictionary_entry.ctor ![22, 0, 19, 2, 7]

/-- The word PLUMB. -/
def PLUMB : dictionary_entry := dictionary_entry.ctor ![15, 11, 20, 12, 1]

/-- The word LATCH. -/
def LATCH : dictionary_entry := dictionary_entry.ctor ![11, 0, 19, 2, 7]

/-- The word HATCH. -/
def HATCH : dictionary_entry := dictionary_entry.ctor ![7, 0, 19, 2, 7]

/-- The word STONE. -/
def STONE : dictionary_entry := dictionary_entry.ctor ![18, 19, 14, 13, 4]

/-- The word MATCH. -/
def MATCH : dictionary_entry := dictionary_entry.ctor ![12, 0, 19, 2, 7]

/-- A six-word dictionary as loaded at the start of a game. -/
def round1_store : store := ⟨[WATCH, PLUMB, LATCH, HATCH, STONE, MATCH], 6⟩

/-- The feedback for the guess WATCH when the hidden word is LATCH. -/
def round1_feedback : Fin 5 → letter_result :=
  ![.incorrect, .correct, .correct, .correct, .correct]

/-- The state after the first round of that game. -/
def round2_state : game_state := apply game_state.init WATCH round1_feedback

/-- The store after the first round of that game: MATCH, HATCH, LATCH remain,
STONE, PLUMB, WATCH lie beyond the logical boundary. -/
def round2_store : store := ⟨[MATCH, HATCH, LATCH, STONE, PLUMB, WATCH], 3⟩

/-- The feedback T Present-Wrong-Spot, everything else Incorrect (STONE against a
word in -ATCH). -/
def stone_feedback : Fin 5 → letter_result :=
  ![.incorrect, .incorrect_location, .incorrect, .incorrect, .incorrect]

/-- Number of occurrences of the letter `c` in the target `t` at positions where
the guess `g` holds a different letter (the occurrences not matched by a
Correct). -/
def unmatched (g t : Fin 5 → Fin 26) (c : Fin 26) : Nat :=
  positions.countP (fun j => decide (t j = c ∧ g j ≠ t j))

/-- One step of standard scoring at position `i`; `acc.1` counts, per letter,
the unmatched occurrences in the target that are still available, `acc.2` is
the feedback written so far. -/
def score_step (g t : Fin 5 → Fin 26) (acc : (Fin 26 → Nat) × (Fin 5 → letter_result))
    (i : Fin 5) : (Fin 26 → Nat) × (Fin 5 → letter_result) :=
  if g i = t i then (acc.1, Function.update acc.2 i .correct)
  else if acc.1 (g i) > 0 then
    (Function.update acc.1 (g i) (acc.1 (g i) - 1), Function.update acc.2 i .incorrect_location)
  else (acc.1, Function.update acc.2 i .incorrect)

/-- Standard scoring of the guess `G` against the target `T`, in the words of
the claim about the true answer (the program never computes it, the user types
the feedback): Correct where the letters coincide; then, left to right, a
non-coinciding guess letter is Present-Wrong-Spot while unmatched occurrences of
that letter remain in `T`, and Incorrect otherwise. -/
def score (G T : dictionary_entry) : Fin 5 → letter_result :=
  (positions.foldl (score_step G.letter_indices T.letter_indices)
    (unmatched G.letter_indices T.letter_indices, fun _ => .incorrect)).2

/-- The scoring loop run over the positions `ps`. -/
def score_run (g t : Fin 5 → Fin 26) (ps : List (Fin 5)) :
    (Fin 26 → Nat) × (Fin 5 → letter_result) :=
  ps.foldl (score_step g t) (unmatched g t, fun _ => .incorrect)

/-- Number of occurrences of the letter `c` in a word given by its letters. -/
def letter_total (w : Fin 5 → Fin 26) (c : Fin 26) : Nat :=
  positions.countP (fun i => decide (w i = c))

/-- Number of positions where guess and target both hold the letter `c`. -/
def greens (g t : Fin 5 → Fin 26) (c : Fin 26) : Nat :=
  positions.countP (fun i => decide (g i = c ∧ g i = t i))

/-! ## The loop of `apply` -/

theorem mem_positions (i : Fin 5) : i ∈ positions := by
  fin_cases i <;> simp [positions]

theorem positions_nodup : positions.Nodup := by decide

section step
variable (E : dictionary_entry) (f : Fin 5 → letter_result) (ls : apply_locals) (i : Fin 5)

theorem apply_set_max_letterCounts : (apply_set_max E ls i).letterCounts = ls.letterCounts := by
  simp only [apply_set_max]; split <;> rfl

theorem apply_set_max_reached :
    (apply_set_max E ls i).reachedMaxLetters = ls.reachedMaxLetters := by
  simp only [apply_set_max]; split <;> rfl

theorem apply_set_max_masks :
    (apply_set_max E ls i).state.letter_masks = ls.state.letter_masks := by
  simp only [apply_set_max]; split <;> rfl

theorem apply_set_min_letterCounts : (apply_set_min E ls i).letterCounts = ls.letterCounts := by
  simp only [apply_set_min]; split <;> rfl

theorem apply_set_min_reached :
    (apply_set_min E ls i).reachedMaxLetters = ls.reachedMaxLetters := by
  simp only [apply_set_min]; split <;> rfl

theorem apply_set_min_masks :
    (apply_set_min E ls i).state.letter_masks = ls.state.letter_masks := by
  simp only [apply_set_min]; split <;> rfl

theorem apply_switch_counts :
    (apply_switch E f ls i).state.letter_counts = ls.state.letter_counts := by
  simp only [apply_switch]; cases f i <;> rfl

theorem apply_switch_letterCounts (c : Fin 26) :
    (apply_switch E f ls i).letterCounts c =
      ls.letterCounts c + (if E.letter_indices i = c ∧ f i ≠ .incorrect then 1 else 0) := by
  simp only [apply_switch]
  by_cases hc : E.letter_indices i = c
  · subst hc; cases hf : f i <;> simp
  · have hc2 : ¬ c = E.letter_indices i := fun h => hc h.symm
    cases hf : f i <;> simp [hc, hc2, Function.update]

theorem apply_switch_reached (c : Fin 26) :
    (apply_switch E f ls i).reachedMaxLetters c =
      (ls.reachedMaxLetters c || decide (E.letter_indices i = c ∧ f i = .incorrect)) := by
  simp only [apply_switch]
  by_cases hc : E.letter_indices i = c
  · subst hc; cases hf : f i <;> simp
  · have hc2 : ¬ c = E.letter_indices i := fun h => hc h.symm
    cases hf : f i <;> simp [hc, hc2, Function.update]

theorem apply_set_max_counts (c : Fin 26) :
    (apply_set_max E ls i).state.letter_counts c =
      if E.letter_indices i = c ∧ ls.reachedMaxLetters c = true then
        ((ls.state.letter_counts c).1, ls.letterCounts c)
      else ls.state.letter_counts c := by
  simp only [apply_set_max]
  by_cases hc : E.letter_indices i = c
  · subst hc; split <;> simp_all
  · have hc2 : ¬ c = E.letter_indices i := fun h => hc h.symm
    split <;> simp [hc, hc2, Function.update]

theorem apply_set_min_counts (c : Fin 26) :
    (apply_set_min E ls i).state.letter_counts c =
      if E.letter_indices i = c then
        (max (ls.state.letter_counts c).1 (ls.letterCounts c), (ls.state.letter_counts c).2)
      else ls.state.letter_counts c := by
  simp only [apply_set_min]
  by_cases hc : E.letter_indices i = c
  · subst hc
    split
    · rename_i h; simp [max_eq_right (le_of_lt h)]
    · rename_i h; simp [max_eq_left (not_lt.mp h)]
  · have hc2 : ¬ c = E.letter_indices i := fun h => hc h.symm
    split <;> simp [hc, hc2, Function.update]

end step

section run
variable (S : game_state) (E : dictionary_entry) (f : Fin 5 → letter_result)

theorem apply_run_snoc (ps : List (Fin 5)) (i : Fin 5) :
    apply_run S E f (ps ++ [i]) = apply_step E f (apply_run S E f ps) i := by
  simp [apply_run, List.foldl_append]

theorem seen_count_snoc (c : Fin 26) (ps : List (Fin 5)) (i : Fin 5) :
    seen_count E f c (ps ++ [i]) =
      seen_count E f c ps + (if E.letter_indices i = c ∧ f i ≠ .incorrect then 1 else 0) := by
  simp [seen_count, List.countP_append, List.countP_cons]

theorem seen_incorrect_snoc (c : Fin 26) (ps : List (Fin 5)) (i : Fin 5) :
    seen_incorrect E f c (ps ++ [i]) =
      (seen_incorrect E f c ps || decide (E.letter_indices i = c ∧ f i = .incorrect)) := by
  simp [seen_incorrect, List.any_append]

theorem apply_run_letterCounts (c : Fin 26) (ps : List (Fin 5)) :
    (apply_run S E f ps).letterCounts c = seen_count E f c ps := by
  induction ps using List.reverseRecOn with
  | nil => simp [apply_run, seen_count]
  | append_singleton ps i ih =>
    rw [apply_run_snoc, seen_count_snoc, apply_step, apply_set_min_letterCounts,
      apply_set_max_letterCounts, apply_switch_letterCounts, ih]

theorem apply_run_reached (c : Fin 26) (ps : List (Fin 5)) :
    (apply_run S E f ps).reachedMaxLetters c = seen_incorrect E f c ps := by
  induction ps using List.reverseRecOn with
  | nil => simp [apply_run, seen_incorrect]
  | append_singleton ps i ih =>
    rw [apply_run_snoc, seen_incorrect_snoc, apply_step, apply_set_min_reached,
      apply_set_max_reached, apply_switch_reached, ih]

theorem apply_run_counts (c : Fin 26) (ps : List (Fin 5)) :
    (apply_run S E f ps).state.letter_counts c =
      (max (S.letter_counts c).1 (seen_count E f c ps),
        if seen_incorrect E f c ps = true then (seen_count E f c ps)
        else (S.letter_counts c).2) := by
  induction ps using List.reverseRecOn with
  | nil =>
    simp only [apply_run, List.foldl_nil, seen_count, List.countP_nil, seen_incorrect,
      List.any_nil]
    ext <;> simp
  | append_singleton ps i ih =>
    have hlc := apply_run_letterCounts S E f c ps
    have hre := apply_run_reached S E f c ps
    rw [apply_run_snoc, apply_step, apply_set_min_counts, apply_set_max_counts,
      apply_set_max_letterCounts, apply_switch_counts, apply_switch_letterCounts,
      apply_switch_reached, ih, hlc, hre, seen_count_snoc, seen_incorrect_snoc]
    by_cases hc : E.letter_indices i = c
    · cases hf : f i <;> cases hs : seen_incorrect E f c ps <;> simp [hc, hf, hs] <;> omega
    · simp [hc]

end run

section ctor
variable (w : Fin 5 → Fin 26)

theorem ctor_letter_indices (i : Fin 5) : (dictionary_entry.ctor w).letter_indices i = w i := by
  fin_cases i <;>
    simp [dictionary_entry.ctor, positions, dictionary_entry.ctor_step, Function.update]

theorem ctor_letter_masks (i : Fin 5) :
    (dictionary_entry.ctor w).letter_masks i = 1 <<< (w i).val := by
  fin_cases i <;>
    simp [dictionary_entry.ctor, positions, dictionary_entry.ctor_step, Function.update]

theorem ctor_step_letter_counts (e : dictionary_entry) (i : Fin 5) (c : Fin 26) :
    (dictionary_entry.ctor_step w e i).letter_counts c =
      e.letter_counts c + (if w i = c then 1 else 0) := by
  simp only [dictionary_entry.ctor_step, Function.update_same]
  by_cases hc : w i = c
  · subst hc; simp
  · have hc2 : ¬ c = w i := fun h => hc h.symm
    simp [hc, hc2, Function.update]

theorem ctor_run_letter_counts (e : dictionary_entry) (c : Fin 26) (ps : List (Fin 5)) :
    (ps.foldl (dictionary_entry.ctor_step w) e).letter_counts c =
      e.letter_counts c + ps.countP (fun i => decide (w i = c)) := by
  induction ps generalizing e with
  | nil => simp
  | cons i ps ih =>
    rw [List.foldl_cons, ih, ctor_step_letter_counts, List.countP_cons]
    simp only [decide_eq_true_eq]
    omega

theorem ctor_letter_counts (c : Fin 26) :
    (dictionary_entry.ctor w).letter_counts c = positions.countP (fun i => decide (w i = c)) := by
  rw [dictionary_entry.ctor, ctor_run_letter_counts]; simp

end ctor

theorem apply_switch_masks (E : dictionary_entry) (f : Fin 5 → letter_result)
    (ls : apply_locals) (j i : Fin 5) :
    (apply_switch E f ls j).state.letter_masks i =
      if i = j then mask_after ls.state E f j else ls.state.letter_masks i := by
  simp only [apply_switch, mask_after]
  by_cases h : i = j
  · subst h; cases f i <;> simp
  · cases f j <;> simp [h, Function.update]

theorem apply_run_masks (S : game_state) (E : dictionary_entry) (f : Fin 5 → letter_result)
    (i : Fin 5) (ps : List (Fin 5)) (hps : ps.Nodup) :
    (apply_run S E f ps).state.letter_masks i =
      if i ∈ ps then mask_after S E f i else S.letter_masks i := by
  induction ps using List.reverseRecOn with
  | nil => simp [apply_run]
  | append_singleton ps j ih =>
    have hnd := List.nodup_append.mp hps
    have hj : j ∉ ps := fun h => hnd.2.2 h (List.mem_singleton_self j)
    rw [apply_run_snoc, apply_step, apply_set_min_masks, apply_set_max_masks,
      apply_switch_masks]
    by_cases h : i = j
    · subst h
      have := ih hnd.1
      simp only [hj, if_false] at this
      simp [mask_after, this]
    · simp [h, ih hnd.1]

theorem apply_eq_run (S : game_state) (E : dictionary_entry) (f : Fin 5 → letter_result) :
    apply S E f = (apply_run S E f positions).state := rfl

theorem apply_letter_masks (S : game_state) (E : dictionary_entry) (f : Fin 5 → letter_result)
    (i : Fin 5) : (apply S E f).letter_masks i = mask_after S E f i := by
  rw [apply_eq_run, apply_run_masks S E f i positions positions_nodup, if_pos (mem_positions i)]

theorem apply_letter_counts (S : game_state) (E : dictionary_entry) (f : Fin 5 → letter_result)
    (c : Fin 26) :
    (apply S E f).letter_counts c =
      (max (S.letter_counts c).1 (seen_count E f c positions),
        if seen_incorrect E f c positions = true then seen_count E f c positions
        else (S.letter_counts c).2) := by
  rw [apply_eq_run, apply_run_counts]

theorem testBit_clear (m c b : Nat) (hm : m < 2 ^ 32) :
    (m &&& not32 (1 <<< c)).testBit b = (m.testBit b && decide (b ≠ c)) := by
  have h32 : (0xFFFFFFFF : Nat) = 2 ^ 32 - 1 := by norm_num
  rw [not32, Nat.testBit_land, Nat.testBit_xor, h32, Nat.testBit_two_pow_sub_one,
    Nat.one_shiftLeft, Nat.testBit_two_pow]
  by_cases hb : b < 32
  · by_cases hbc : c = b
    · subst hbc; simp [hb]
    · have : ¬ b = c := fun h => hbc h.symm
      simp [hb, hbc, this]
  · have : m.testBit b = false :=
      Nat.testBit_lt_two_pow (lt_of_lt_of_le hm (Nat.pow_le_pow_right (by norm_num) (by omega)))
    simp [this]

theorem univ_fin5 : (Finset.univ : Finset (Fin 5)) = positions.toFinset := by decide

theorem card_filter_positions (p : Fin 5 → Prop) [DecidablePred p] :
    (Finset.univ.filter p).card = positions.countP (fun i => decide (p i)) := by
  have h : Finset.filter p positions.toFinset =
      (positions.filter (fun i => decide (p i))).toFinset := by
    ext x; simp
  rw [univ_fin5, h, List.toFinset_card_of_nodup (positions_nodup.filter _),
    List.countP_eq_length_filter]

theorem seen_incorrect_iff (E : dictionary_entry) (f : Fin 5 → letter_result) (c : Fin 26) :
    seen_incorrect E f c positions = true ↔ ∃ i, E.letter_indices i = c ∧ f i = .incorrect := by
  simp only [seen_incorrect, List.any_eq_true, decide_eq_true_eq]
  constructor
  · rintro ⟨i, _, h⟩; exact ⟨i, h⟩
  · rintro ⟨i, h⟩; exact ⟨i, mem_positions i, h⟩

theorem seen_count_eq_card (E : dictionary_entry) (f : Fin 5 → letter_result) (c : Fin 26) :
    seen_count E f c positions =
      (Finset.univ.filter (fun i : Fin 5 =>
        E.letter_indices i = c ∧ (f i = .incorrect_location ∨ f i = .correct))).card := by
  rw [card_filter_positions, seen_count]
  congr 1
  funext i
  cases f i <;> simp

/-! ## Claims about `word_fits_requirements` and `apply` -/

/-- Both loops of `word_fits_requirements` read as universal statements. -/
theorem fits_iff (E : dictionary_entry) (S : game_state) :
    word_fits_requirements E S = true ↔
      (∀ i : Fin 5, E.letter_masks i &&& S.letter_masks i ≠ 0) ∧
      (∀ c : Fin 26, (S.letter_counts c).1 ≤ E.letter_counts c ∧
        E.letter_counts c ≤ (S.letter_counts c).2) := by
  unfold word_fits_requirements
  constructor
  · intro h
    split at h
    · simp at h
    · rename_i h1
      split at h
      · simp at h
      · rename_i h2
        simp only [List.any_eq_true, not_exists, not_and, Bool.or_eq_true, decide_eq_true_eq,
          beq_iff_eq] at h1 h2
        refine ⟨fun i => h1 i (mem_positions i), fun c => ?_⟩
        have := h2 c (List.mem_finRange c)
        omega
  · rintro ⟨h1, h2⟩
    have a1 : ¬ (positions.any
        (fun i => E.letter_masks i &&& S.letter_masks i == 0) = true) := by
      simp only [List.any_eq_true, not_exists, not_and, beq_iff_eq]
      intro i _; exact h1 i
    have a2 : ¬ ((List.finRange 26).any
      (fun i => decide (E.letter_counts i < (S.letter_counts i).1) ||
        decide (E.letter_counts i > (S.letter_counts i).2)) = true) := by
      simp only [List.any_eq_true, not_exists, not_and, Bool.or_eq_true, decide_eq_true_eq]
      intro c _
      have := h2 c
      omega
    rw [if_neg a1, if_neg a2]

/-- C4: `word_fits_requirements(E, S)` is true exactly when at every position
the entry's mask meets the state's mask (`&` is non-zero) and every one of the
26 letter counts of the entry lies between the state's bounds. -/
theorem word_fits_requirements_iff (E : dictionary_entry) (S : game_state) :
    word_fits_requirements E S = true ↔
      (∀ i : Fin 5, E.letter_masks i &&& S.letter_masks i ≠ 0) ∧
      (∀ c : Fin 26, (S.letter_counts c).1 ≤ E.letter_counts c ∧
        E.letter_counts c ≤ (S.letter_counts c).2) :=
  fits_iff E S

/-- C2: after `apply(S, E, f)` the lower bound of letter `c` is the larger of
the old lower bound and `k_c`; the upper bound is `k_c` when some position
holding `c` received Incorrect and the old upper bound otherwise; a letter that
does not occur in `E` keeps both bounds. -/
theorem apply_count_bounds (S : game_state) (E : dictionary_entry)
    (f : Fin 5 → letter_result) (c : Fin 26) :
    ((apply S E f).letter_counts c).1 = max (S.letter_counts c).1 (present_count E f c) ∧
    ((apply S E f).letter_counts c).2 =
      (if ∃ i, E.letter_indices i = c ∧ f i = .incorrect then present_count E f c
        else (S.letter_counts c).2) ∧
    ((∀ i, E.letter_indices i ≠ c) → (apply S E f).letter_counts c = S.letter_counts c) := by
  have hk : seen_count E f c positions = present_count E f c := seen_count_eq_card E f c
  have hi := seen_incorrect_iff E f c
  rw [apply_letter_counts, hk]
  refine ⟨rfl, ?_, ?_⟩
  · by_cases h : ∃ i, E.letter_indices i = c ∧ f i = .incorrect
    · rw [if_pos (hi.mpr h), if_pos h]
    · have h2 : ¬ seen_incorrect E f c positions = true := fun h3 => h (hi.mp h3)
      rw [if_neg h2, if_neg h]
  · intro hno
    have h : ¬ ∃ i, E.letter_indices i = c ∧ f i = .incorrect := fun ⟨i, hi1, _⟩ => hno i hi1
    have h2 : ¬ seen_incorrect E f c positions = true := fun h3 => h (hi.mp h3)
    have h0 : present_count E f c = 0 := by
      rw [present_count, Finset.card_eq_zero, Finset.filter_eq_empty_iff]
      intro i _ hcontra
      exact hno i hcontra.1
    simp [h2, h0]

/-- C3: for an entry built by the constructor and a state whose mask at
position `i` is a 32-bit value, `apply` leaves at position `i` the old mask with
the bit of the letter `c` at `i` cleared and every other bit unchanged when
`f[i]` is Incorrect or Present-Wrong-Spot, and exactly the singleton mask of `c`
when `f[i]` is Correct; the result at `i` is the same for any other entry,
feedback and state that agree at position `i`. -/
theorem apply_position_mask (S : game_state) (w : Fin 5 → Fin 26)
    (f : Fin 5 → letter_result) (i : Fin 5) (hS : S.letter_masks i < 2 ^ 32) :
    ((f i = .incorrect ∨ f i = .incorrect_location) →
      ∀ b : Nat, ((apply S (dictionary_entry.ctor w) f).letter_masks i).testBit b =
        ((S.letter_masks i).testBit b &&
          decide (b ≠ ((dictionary_entry.ctor w).letter_indices i).val))) ∧
    (f i = .correct →
      (apply S (dictionary_entry.ctor w) f).letter_masks i =
        1 <<< ((dictionary_entry.ctor w).letter_indices i).val) ∧
    (∀ (S2 : game_state) (w2 : Fin 5 → Fin 26) (f2 : Fin 5 → letter_result),
      S2.letter_masks i = S.letter_masks i → w2 i = w i → f2 i = f i →
      (apply S2 (dictionary_entry.ctor w2) f2).letter_masks i =
        (apply S (dictionary_entry.ctor w) f).letter_masks i) := by
  refine ⟨?_, ?_, ?_⟩
  · intro hf b
    rw [apply_letter_masks, ctor_letter_indices]
    have : mask_after S (dictionary_entry.ctor w) f i =
        S.letter_masks i &&& not32 (1 <<< (w i).val) := by
      rw [mask_after, ctor_letter_masks]
      rcases hf with hf | hf <;> rw [hf]
    rw [this, testBit_clear _ _ _ hS]
  · intro hf
    rw [apply_letter_masks, ctor_letter_indices, mask_after, ctor_letter_masks, hf]
  · intro S2 w2 f2 h1 h2 h3
    rw [apply_letter_masks, apply_letter_masks, mask_after, mask_after, ctor_letter_masks,
      ctor_letter_masks, h1, h2, h3]

/-- Witness for C3: CRANE guessed in the initial state with Incorrect at every
position, read at position 0. -/
theorem apply_position_mask_witness :
    game_state.init.letter_masks 0 < 2 ^ 32 ∧
    (((all_incorrect 0 = .incorrect ∨ all_incorrect 0 = .incorrect_location) →
      ∀ b : Nat,
        ((apply game_state.init (dictionary_entry.ctor ![2, 17, 0, 13, 4])
          all_incorrect).letter_masks 0).testBit b =
        ((game_state.init.letter_masks 0).testBit b &&
          decide (b ≠ ((dictionary_entry.ctor ![2, 17, 0, 13, 4]).letter_indices 0).val))) ∧
    (all_incorrect 0 = .correct →
      (apply game_state.init (dictionary_entry.ctor ![2, 17, 0, 13, 4])
        all_incorrect).letter_masks 0 =
        1 <<< ((dictionary_entry.ctor ![2, 17, 0, 13, 4]).letter_indices 0).val) ∧
    (∀ (S2 : game_state) (w2 : Fin 5 → Fin 26) (f2 : Fin 5 → letter_result),
      S2.letter_masks 0 = game_state.init.letter_masks 0 →
      w2 0 = (![2, 17, 0, 13, 4] : Fin 5 → Fin 26) 0 → f2 0 = all_incorrect 0 →
      (apply S2 (dictionary_entry.ctor w2) f2).letter_masks 0 =
        (apply game_state.init (dictionary_entry.ctor ![2, 17, 0, 13, 4])
          all_incorrect).letter_masks 0)) :=
  ⟨by decide, apply_position_mask game_state.init ![2, 17, 0, 13, 4] all_incorrect 0 (by decide)⟩

theorem seen_count_all_correct (w : Fin 5 → Fin 26) (c : Fin 26) :
    seen_count (dictionary_entry.ctor w) all_correct c positions =
      (dictionary_entry.ctor w).letter_counts c := by
  rw [ctor_letter_counts, seen_count]
  congr 1
  funext i
  simp [ctor_letter_indices, all_correct]

theorem seen_incorrect_all_correct (E : dictionary_entry) (c : Fin 26) :
    seen_incorrect E all_correct c positions = false := by
  simp [seen_incorrect, all_correct]

theorem one_shiftLeft_land_self_ne_zero (n : Nat) : (1 <<< n) &&& (1 <<< n) ≠ 0 := by
  rw [Nat.and_self, Nat.one_shiftLeft]
  exact Nat.pos_iff_ne_zero.mp (Nat.two_pow_pos n)

/-- C10, counterexample: in the state left by ALARM with Incorrect everywhere
(upper bound of A is 0), guessing ALARM again with Correct for the first A and
Incorrect elsewhere sets the upper bound of A to 1. -/
theorem apply_max_count_loosens :
    ¬ (((apply (apply game_state.init ALARM all_incorrect) ALARM
          ![.correct, .incorrect, .incorrect, .incorrect, .incorrect]).letter_counts 0).1 ≥
        ((apply game_state.init ALARM all_incorrect).letter_counts 0).1 ∧
      ((apply (apply game_state.init ALARM all_incorrect) ALARM
          ![.correct, .incorrect, .incorrect, .incorrect, .incorrect]).letter_counts 0).2 ≤
        ((apply game_state.init ALARM all_incorrect).letter_counts 0).2) := by
  decide

/-- C10, amended: `apply` never lowers the lower bound of a letter, and it
leaves the upper bound of `c` no larger than before exactly when no position
holding `c` received Incorrect or `k_c` is at most the old upper bound. -/
theorem apply_bounds_tighten (S : game_state) (E : dictionary_entry)
    (f : Fin 5 → letter_result) (c : Fin 26) :
    ((apply S E f).letter_counts c).1 ≥ (S.letter_counts c).1 ∧
    (((apply S E f).letter_counts c).2 ≤ (S.letter_counts c).2 ↔
      ((¬ ∃ i, E.letter_indices i = c ∧ f i = .incorrect) ∨
        present_count E f c ≤ (S.letter_counts c).2)) := by
  have hk : seen_count E f c positions = present_count E f c := seen_count_eq_card E f c
  have hi := seen_incorrect_iff E f c
  rw [apply_letter_counts, hk]
  refine ⟨le_max_left _ _, ?_⟩
  by_cases h : ∃ i, E.letter_indices i = c ∧ f i = .incorrect
  · simp only [if_pos (hi.mpr h)]
    constructor
    · intro h1; exact Or.inr h1
    · rintro (h1 | h1)
      · exact absurd h h1
      · exact h1
  · have h2 : ¬ seen_incorrect E f c positions = true := fun h3 => h (hi.mp h3)
    simp only [if_neg h2]
    exact ⟨fun _ => Or.inl h, fun _ => le_refl _⟩

/-- C9, counterexample: after CRANE was answered with Incorrect everywhere,
guessing CRANE with Correct everywhere gives a state that CRANE does not fit. -/
theorem self_consistency_fails :
    ¬ (word_fits_requirements CRANE
        (apply (apply game_state.init CRANE all_incorrect) CRANE all_correct) = true) := by
  decide

/-- C9, amended: for an entry `E` built by the constructor and any state `S`,
`E` fits `apply(S, E, all Correct)` exactly when every letter count of `E` lies
within the count bounds of `S`. -/
theorem self_consistency_iff (S : game_state) (w : Fin 5 → Fin 26) :
    word_fits_requirements (dictionary_entry.ctor w)
        (apply S (dictionary_entry.ctor w) all_correct) = true ↔
      ∀ c : Fin 26, (S.letter_counts c).1 ≤ (dictionary_entry.ctor w).letter_counts c ∧
        (dictionary_entry.ctor w).letter_counts c ≤ (S.letter_counts c).2 := by
  rw [fits_iff]
  have hm : ∀ i : Fin 5, (dictionary_entry.ctor w).letter_masks i &&&
      (apply S (dictionary_entry.ctor w) all_correct).letter_masks i ≠ 0 := by
    intro i
    rw [apply_letter_masks, mask_after, ctor_letter_masks]
    simp only [all_correct]
    exact one_shiftLeft_land_self_ne_zero _
  constructor
  · rintro ⟨_, h⟩ c
    have := h c
    rw [apply_letter_counts, seen_count_all_correct, seen_incorrect_all_correct] at this
    simp only [Bool.false_eq_true, if_false] at this
    omega
  · intro h
    refine ⟨hm, fun c => ?_⟩
    rw [apply_letter_counts, seen_count_all_correct, seen_incorrect_all_correct]
    simp only [Bool.false_eq_true, if_false]
    have := h c
    omega

/-! ## The loop of `prune_dictionary` -/

theorem getElem?_mid {α : Type} (pre rest : List α) (x : α) :
    (pre ++ x :: rest)[pre.length]? = some x := by
  rw [List.getElem?_append_right (le_refl _)]; simp

theorem set_mid {α : Type} (pre rest : List α) (x y : α) :
    (pre ++ x :: rest).set pre.length y = pre ++ y :: rest := by
  simp

theorem misfits_cons (state : game_state) (e : dictionary_entry) (l : List dictionary_entry) :
    misfits state (e :: l) =
      misfits state l + (if word_fits_requirements e state = true then 0 else 1) := by
  by_cases h : word_fits_requirements e state = true <;> simp [misfits, List.countP_cons, h]

theorem prune_loop_count (state : game_state) (fuel : Nat) (pre mid post : List dictionary_entry)
    (result : Nat) (hfuel : mid.length ≤ fuel) :
    prune_loop state false fuel (pre ++ (mid ++ post)) (pre.length + mid.length) pre.length
        result =
      .ok (result + misfits state mid, ⟨pre ++ (mid ++ post), pre.length + mid.length⟩) := by
  induction fuel generalizing pre mid result with
  | zero =>
    have : mid = [] := List.eq_nil_of_length_eq_zero (by omega)
    subst this
    simp [prune_loop, misfits]
  | succ fuel ih =>
    cases mid with
    | nil => simp [prune_loop, misfits]
    | cons e m =>
      have hlen : (pre ++ [e]).length = pre.length + 1 := by simp
      have hlist : pre ++ [e] ++ (m ++ post) = pre ++ (e :: m ++ post) := by simp
      have hih := ih (pre ++ [e]) m
      rw [hlen, hlist] at hih
      simp only [List.length_cons] at hfuel ⊢
      have e1 : pre.length + (m.length + 1) = pre.length + 1 + m.length := by omega
      rw [prune_loop, if_pos (by omega)]
      simp only [List.cons_append, getElem?_mid]
      rw [List.cons_append] at hih
      by_cases hfit : word_fits_requirements e state = true
      · simp only [hfit, Bool.not_true, Bool.false_eq_true, if_false]
        rw [e1, hih _ (by omega), misfits_cons, if_pos hfit]
        rfl
      · simp only [hfit, Bool.not_false, if_true, Bool.false_eq_true, if_false]
        rw [e1, hih _ (by omega), misfits_cons, if_neg hfit]
        simp only [Except.ok.injEq, Prod.mk.injEq, and_true]
        omega

theorem misfits_perm (state : game_state) {l1 l2 : List dictionary_entry} (h : l1.Perm l2) :
    misfits state l1 = misfits state l2 :=
  h.countP_eq _

theorem prune_loop_commit (state : game_state) (fuel : Nat)
    (pre mid post : List dictionary_entry) (result : Nat) (hfuel : mid.length ≤ fuel) :
    ∃ kept post2 : List dictionary_entry,
      prune_loop state true fuel (pre ++ (mid ++ post)) (pre.length + mid.length) pre.length
          result =
        .ok (result + misfits state mid, ⟨pre ++ (kept ++ post2), pre.length + kept.length⟩) ∧
      kept.Perm (mid.filter (fun e => word_fits_requirements e state)) ∧
      (kept ++ post2).Perm (mid ++ post) := by
  induction fuel generalizing pre mid post result with
  | zero =>
    have : mid = [] := List.eq_nil_of_length_eq_zero (by omega)
    subst this
    exact ⟨[], post, by simp [prune_loop, misfits], by simp, by simp⟩
  | succ fuel ih =>
    cases mid with
    | nil => exact ⟨[], post, by simp [prune_loop, misfits], by simp, by simp⟩
    | cons e m =>
      simp only [List.length_cons] at hfuel
      by_cases hfit : word_fits_requirements e state = true
      · have hlen : (pre ++ [e]).length = pre.length + 1 := by simp
        have hlist : ∀ r : List dictionary_entry, pre ++ [e] ++ r = pre ++ e :: r := by simp
        obtain ⟨kept, post2, h1, h2, h3⟩ := ih (pre ++ [e]) m post result (by omega)
        rw [hlen, hlist] at h1
        refine ⟨e :: kept, post2, ?_, ?_, ?_⟩
        · rw [prune_loop, if_pos (by simp)]
          simp only [List.cons_append, getElem?_mid, hfit, Bool.not_true, Bool.false_eq_true,
            if_false, List.length_cons]
          have e1 : pre.length + (m.length + 1) = pre.length + 1 + m.length := by omega
          rw [e1, h1, misfits_cons, if_pos hfit, hlist]
          simp only [Nat.add_zero, Except.ok.injEq, Prod.mk.injEq, store.mk.injEq, true_and]
          omega
        · simp only [List.filter_cons, hfit, if_true]
          exact h2.cons e
        · simpa using h3.cons e
      · rcases List.eq_nil_or_concat m with hm | ⟨m2, l, hm⟩
        · subst hm
          obtain ⟨kept, post2, h1, h2, h3⟩ := ih pre [] (e :: post) (result + 1) (by simp)
          refine ⟨kept, post2, ?_, ?_, ?_⟩
          · rw [prune_loop, if_pos (by simp)]
            simp only [List.cons_append, List.nil_append, getElem?_mid, hfit, Bool.not_false,
              if_true, List.length_cons, List.length_nil, Nat.zero_add, Nat.add_sub_cancel,
              set_mid]
            simp only [List.nil_append, List.length_nil, Nat.add_zero] at h1
            rw [h1, misfits_cons, if_neg hfit]
            simp only [Except.ok.injEq, Prod.mk.injEq, and_true]
            try omega
          · simpa only [List.filter_cons, hfit, Bool.false_eq_true, if_false] using h2
          · simpa using h3
        · rw [List.concat_eq_append] at hm
          subst hm
          obtain ⟨kept, post2, h1, h2, h3⟩ :=
            ih pre (l :: m2) (e :: post) (result + 1) (by simp at hfuel ⊢; omega)
          have hperm : (l :: m2).Perm (m2 ++ [l]) := by
            simpa using (List.perm_append_comm : ([l] ++ m2).Perm (m2 ++ [l]))
          have hidx : pre.length + ((m2 ++ [l]).length + 1) - 1 = (pre ++ e :: m2).length := by
            simp
          have hd : pre ++ (e :: (m2 ++ [l]) ++ post) = (pre ++ e :: m2) ++ l :: post := by simp
          have hd2 : pre ++ l :: (m2 ++ [l] ++ post) = (pre ++ l :: m2) ++ l :: post := by simp
          have hidx2 : (pre ++ e :: m2).length = (pre ++ l :: m2).length := by simp
          refine ⟨kept, post2, ?_, ?_, ?_⟩
          · rw [prune_loop, if_pos (by simp)]
            simp only [List.cons_append, getElem?_mid, hfit, Bool.not_false, if_true,
              List.length_cons]
            rw [hidx]
            rw [List.cons_append] at hd
            rw [hd, getElem?_mid]
            simp only
            rw [← hd, set_mid, hd2, hidx2, set_mid]
            have e2 : (pre ++ l :: m2).length = pre.length + (l :: m2).length := by simp
            have e3 : pre ++ l :: m2 ++ e :: post = pre ++ (l :: m2 ++ e :: post) := by simp
            have e4 : misfits state (e :: (m2 ++ [l])) = misfits state (l :: m2) + 1 := by
              rw [misfits_cons, if_neg hfit, misfits_perm state hperm]
            rw [e2, e3, h1, e4]
            simp only [Except.ok.injEq, Prod.mk.injEq, and_true]
            omega
          · simp only [List.filter_cons, hfit, Bool.false_eq_true, if_false]
            exact h2.trans (hperm.filter _)
          · have hp2 : (l :: m2 ++ e :: post).Perm (e :: (m2 ++ [l]) ++ post) := by
              have a : (l :: m2 ++ e :: post).Perm (e :: (l :: m2 ++ post)) := by
                simpa using (List.perm_middle :
                  ((l :: m2) ++ e :: post).Perm (e :: ((l :: m2) ++ post)))
              have b : (l :: m2 ++ post).Perm (m2 ++ [l] ++ post) := hperm.append_right post
              simpa using a.trans (b.cons e)
            exact h3.trans hp2

theorem store_split (st : store) (hwf : st.dictionary_size ≤ st.dictionary.length) :
    st.dictionary = [] ++ (st.region ++ st.dictionary.drop st.dictionary_size) ∧
      st.dictionary_size = ([] : List dictionary_entry).length + st.region.length := by
  simp [store.region, List.take_append_drop, List.length_take, hwf]

theorem prune_dictionary_count (state : game_state) (st : store)
    (hwf : st.dictionary_size ≤ st.dictionary.length) :
    prune_dictionary state false st = .ok (misfits state st.region, st) := by
  obtain ⟨h1, h2⟩ := store_split st hwf
  have h3 : st.region.length ≤ st.dictionary_size := by simp at h2; omega
  have h := prune_loop_count state st.dictionary_size [] st.region
    (st.dictionary.drop st.dictionary_size) 0 h3
  rw [← h1, ← h2] at h
  simpa [prune_dictionary] using h

theorem prune_dictionary_commit (state : game_state) (st : store)
    (hwf : st.dictionary_size ≤ st.dictionary.length) :
    ∃ kept post2 : List dictionary_entry,
      prune_dictionary state true st =
        .ok (misfits state st.region, ⟨kept ++ post2, kept.length⟩) ∧
      kept.Perm (st.region.filter (fun e => word_fits_requirements e state)) ∧
      (kept ++ post2).Perm st.dictionary := by
  obtain ⟨h1, h2⟩ := store_split st hwf
  have h3 : st.region.length ≤ st.dictionary_size := by simp at h2; omega
  obtain ⟨kept, post2, h, hk, hp⟩ := prune_loop_commit state st.dictionary_size [] st.region
    (st.dictionary.drop st.dictionary_size) 0 h3
  rw [← h1, ← h2] at h
  refine ⟨kept, post2, ?_, hk, ?_⟩
  · simpa [prune_dictionary] using h
  · rw [h1]; simpa using hp

theorem length_filter_fits (state : game_state) (l : List dictionary_entry) :
    (l.filter (fun e => word_fits_requirements e state)).length + misfits state l = l.length := by
  induction l with
  | nil => simp [misfits]
  | cons e l ih =>
    rw [misfits_cons]
    by_cases h : word_fits_requirements e state = true
    · simp only [List.filter_cons, h, if_true, List.length_cons]; omega
    · simp only [List.filter_cons, h, Bool.false_eq_true, if_false, List.length_cons]; omega

/-- C1: on a store whose logical size does not exceed the vector's size, the
committed `prune_dictionary` returns a count and leaves a store whose logical
region is a permutation of the entries of the old logical region that satisfy
`word_fits_requirements`; the new logical size is the old one minus the
returned count, hence not larger. The count is the number of entries of the old
logical region that fail `word_fits_requirements`, the vector is a permutation
of the old vector (nothing is erased or added), and the new logical size again
does not exceed the vector's size. -/
theorem prune_dictionary_commit_spec (state : game_state) (st : store)
    (hwf : st.dictionary_size ≤ st.dictionary.length) :
    ∃ (count : Nat) (st2 : store),
      prune_dictionary state true st = .ok (count, st2) ∧
      st2.region.Perm (st.region.filter (fun e => word_fits_requirements e state)) ∧
      st2.dictionary_size = st.dictionary_size - count ∧
      st2.dictionary_size ≤ st.dictionary_size ∧
      count = (st.region.filter (fun e => !word_fits_requirements e state)).length ∧
      count ≤ st.dictionary_size ∧
      st2.dictionary.Perm st.dictionary ∧
      st2.dictionary_size ≤ st2.dictionary.length := by
  obtain ⟨kept, post2, h, hk, hp⟩ := prune_dictionary_commit state st hwf
  have hlen := length_filter_fits state st.region
  have hr : st.region.length = st.dictionary_size := by
    simp [store.region, List.length_take, hwf]
  have hkl := hk.length_eq
  refine ⟨_, _, h, ?_, ?_, ?_, ?_, ?_, hp, ?_⟩
  · simpa [store.region] using hk
  · simp only; omega
  · simp only; omega
  · rw [misfits, List.countP_eq_length_filter]
  · omega
  · simp

/-! ## The nested loops of `word_min_removed` -/

theorem for3_store (st : store) (body : Nat → Nat × store → Except fault (Nat × store))
    (h : Nat → Nat → Nat) (hb : ∀ a r, body a (r, st) = .ok (h a r, st)) (r : Nat) :
    for3 body (r, st) = .ok ([0, 1, 2].foldl (fun r a => h a r) r, st) := by
  simp only [for3, hb, List.foldl_cons, List.foldl_nil]

theorem foldl_flatMap_eq {α β γ : Type} (l : List α) (f : α → List β) (g : γ → β → γ) (s : γ) :
    (l.flatMap f).foldl g s = l.foldl (fun s a => (f a).foldl g s) s := by
  induction l generalizing s with
  | nil => rfl
  | cons a l ih => simp only [List.flatMap_cons, List.foldl_append, List.foldl_cons, ih]

theorem word_min_removed_body_eq (S : game_state) (E : dictionary_entry)
    (f : Fin 5 → letter_result) (st : store) (hwf : st.dictionary_size ≤ st.dictionary.length)
    (r : Nat) :
    word_min_removed_body S E f (r, st) = .ok (min_step S E st.region r f, st) := by
  rw [word_min_removed_body]
  simp only [prune_dictionary_count _ st hwf, min_step]

theorem word_min_removed_eq_foldl (S : game_state) (E : dictionary_entry) (st : store)
    (hwf : st.dictionary_size ≤ st.dictionary.length) :
    word_min_removed S E st =
      .ok (feedback_patterns.foldl (min_step S E st.region) SIZE_MAX, st) := by
  rw [word_min_removed]
  simp only [feedback_patterns, foldl_flatMap_eq, List.foldl_map]
  refine for3_store st _ _ (fun a0 r0 => ?_) _
  refine for3_store st _ _ (fun a1 r1 => ?_) _
  refine for3_store st _ _ (fun a2 r2 => ?_) _
  refine for3_store st _ _ (fun a3 r3 => ?_) _
  refine for3_store st _ _ (fun a4 r4 => ?_) _
  exact word_min_removed_body_eq S E _ st hwf r4

theorem foldl_min_step (S : game_state) (E : dictionary_entry) (region : List dictionary_entry)
    (l : List (Fin 5 → letter_result)) (r0 : Nat) :
    l.foldl (min_step S E region) r0 ≤ r0 ∧
    (∀ f ∈ l, l.foldl (min_step S E region) r0 ≤ misfits (apply S E f) region) ∧
    (l.foldl (min_step S E region) r0 = r0 ∨
      ∃ f ∈ l, l.foldl (min_step S E region) r0 = misfits (apply S E f) region) := by
  induction l generalizing r0 with
  | nil => simp
  | cons f l ih =>
    obtain ⟨h1, h2, h3⟩ := ih (min_step S E region r0 f)
    have hstep : min_step S E region r0 f ≤ r0 ∧
        min_step S E region r0 f ≤ misfits (apply S E f) region ∧
        (min_step S E region r0 f = r0 ∨
          min_step S E region r0 f = misfits (apply S E f) region) := by
      unfold min_step
      split
      · exact ⟨by omega, le_refl _, Or.inr rfl⟩
      · exact ⟨le_refl _, by omega, Or.inl rfl⟩
    simp only [List.foldl_cons, List.mem_cons, forall_eq_or_imp, exists_eq_or_imp]
    refine ⟨by omega, ⟨by omega, h2⟩, ?_⟩
    rcases h3 with h3 | ⟨g, hg, h3⟩
    · rcases hstep.2.2 with h4 | h4
      · exact Or.inl (h3.trans h4)
      · exact Or.inr (Or.inl (h3.trans h4))
    · exact Or.inr (Or.inr ⟨g, hg, h3⟩)

theorem cast_code (x : letter_result) : letter_result.cast x.code = x := by
  cases x <;> rfl

theorem code_mem (x : letter_result) : x.code ∈ [0, 1, 2] := by
  cases x <;> simp [letter_result.code]

theorem mem_feedback_patterns (f : Fin 5 → letter_result) : f ∈ feedback_patterns := by
  simp only [feedback_patterns, List.mem_flatMap, List.mem_map]
  refine ⟨(f 0).code, code_mem _, (f 1).code, code_mem _, (f 2).code, code_mem _,
    (f 3).code, code_mem _, (f 4).code, code_mem _, ?_⟩
  funext i
  fin_cases i <;> simp [cast_code, Function.update]

theorem feedback_patterns_length : feedback_patterns.length = 243 := by rfl

theorem feedback_patterns_nodup : feedback_patterns.Nodup := by
  have huniv : feedback_patterns.toFinset = Finset.univ := by
    ext f; simp [mem_feedback_patterns]
  have hcard : Fintype.card (Fin 5 → letter_result) = 243 := by
    rw [Fintype.card_fun, Fintype.card_fin]; rfl
  have hlen : feedback_patterns.dedup.length = feedback_patterns.length := by
    rw [← List.card_toFinset, huniv, Finset.card_univ, hcard, feedback_patterns_length]
  have := (List.dedup_sublist feedback_patterns).eq_of_length hlen
  rw [← this]
  exact List.nodup_dedup _

theorem misfits_le_length (state : game_state) (l : List dictionary_entry) :
    misfits state l ≤ l.length := by
  have := length_filter_fits state l
  omega

theorem region_length_le (st : store) : st.region.length ≤ st.dictionary_size := by
  simp [store.region, List.length_take]

theorem word_min_removed_le_size (S : game_state) (E : dictionary_entry) (st : store) :
    feedback_patterns.foldl (min_step S E st.region) SIZE_MAX ≤ st.dictionary_size := by
  have h := (foldl_min_step S E st.region feedback_patterns SIZE_MAX).2.1 all_incorrect
    (mem_feedback_patterns _)
  have h1 := misfits_le_length (apply S E all_incorrect) st.region
  have h2 := region_length_le st
  omega

/-- C5: on a store whose logical size is a `size_t` not exceeding the vector's
size, `word_min_removed(S, E)` returns a value `r` and leaves the store as it
was; `r` is the minimum over all feedback patterns `f` of the count returned
by `prune_dictionary(apply(S, E, f), false)`: no pattern gives less and some
pattern gives exactly `r`. The loops fold over `feedback_patterns`, which lists
each of the 243 patterns exactly once. -/
theorem word_min_removed_is_min (S : game_state) (E : dictionary_entry) (st : store)
    (hwf : st.dictionary_size ≤ st.dictionary.length) (hsize : st.dictionary_size ≤ SIZE_MAX) :
    ∃ r : Nat, word_min_removed S E st = .ok (r, st) ∧
      (∀ f : Fin 5 → letter_result,
        ∃ n : Nat, prune_dictionary (apply S E f) false st = .ok (n, st) ∧ r ≤ n) ∧
      (∃ f : Fin 5 → letter_result, prune_dictionary (apply S E f) false st = .ok (r, st)) ∧
      r = feedback_patterns.foldl (min_step S E st.region) SIZE_MAX ∧
      feedback_patterns.length = 243 ∧ feedback_patterns.Nodup ∧
      (∀ f : Fin 5 → letter_result, f ∈ feedback_patterns) := by
  obtain ⟨h1, h2, h3⟩ := foldl_min_step S E st.region feedback_patterns SIZE_MAX
  refine ⟨_, word_min_removed_eq_foldl S E st hwf, ?_, ?_, rfl, feedback_patterns_length,
    feedback_patterns_nodup, mem_feedback_patterns⟩
  · intro f
    exact ⟨_, prune_dictionary_count _ st hwf, h2 f (mem_feedback_patterns f)⟩
  · rcases h3 with h3 | ⟨f, _, h3⟩
    · refine ⟨all_incorrect, ?_⟩
      have hle := word_min_removed_le_size S E st
      have hge := h2 all_incorrect (mem_feedback_patterns _)
      have hm := misfits_le_length (apply S E all_incorrect) st.region
      have hr := region_length_le st
      rw [prune_dictionary_count _ st hwf]
      have : misfits (apply S E all_incorrect) st.region =
          feedback_patterns.foldl (min_step S E st.region) SIZE_MAX := by omega
      rw [this]
    · exact ⟨f, by rw [prune_dictionary_count _ st hwf, h3]⟩

/-- Witness for C5: CRANE evaluated in the initial state over the five-word store. -/
theorem word_min_removed_is_min_witness :
    (scenario_store.dictionary_size ≤ scenario_store.dictionary.length ∧
      scenario_store.dictionary_size ≤ SIZE_MAX) ∧
    ∃ r : Nat, word_min_removed game_state.init CRANE scenario_store = .ok (r, scenario_store) ∧
      (∀ f : Fin 5 → letter_result,
        ∃ n : Nat, prune_dictionary (apply game_state.init CRANE f) false scenario_store =
          .ok (n, scenario_store) ∧ r ≤ n) ∧
      (∃ f : Fin 5 → letter_result,
        prune_dictionary (apply game_state.init CRANE f) false scenario_store =
          .ok (r, scenario_store)) ∧
      r = feedback_patterns.foldl (min_step game_state.init CRANE scenario_store.region) SIZE_MAX ∧
      feedback_patterns.length = 243 ∧ feedback_patterns.Nodup ∧
      (∀ f : Fin 5 → letter_result, f ∈ feedback_patterns) :=
  ⟨⟨by decide, by decide⟩,
    word_min_removed_is_min game_state.init CRANE scenario_store (by decide) (by decide)⟩

/-- Witness for C1: the five-word store pruned against the state of the scenario. -/
theorem prune_dictionary_commit_spec_witness :
    scenario_store.dictionary_size ≤ scenario_store.dictionary.length ∧
    ∃ (count : Nat) (st2 : store),
      prune_dictionary (apply game_state.init CRANE all_correct) true scenario_store =
        .ok (count, st2) ∧
      st2.region.Perm (scenario_store.region.filter
        (fun e => word_fits_requirements e (apply game_state.init CRANE all_correct))) ∧
      st2.dictionary_size = scenario_store.dictionary_size - count ∧
      st2.dictionary_size ≤ scenario_store.dictionary_size ∧
      count = (scenario_store.region.filter
        (fun e => !word_fits_requirements e (apply game_state.init CRANE all_correct))).length ∧
      count ≤ scenario_store.dictionary_size ∧
      st2.dictionary.Perm scenario_store.dictionary ∧
      st2.dictionary_size ≤ st2.dictionary.length :=
  ⟨by decide, prune_dictionary_commit_spec (apply game_state.init CRANE all_correct)
    scenario_store (by decide)⟩

/-! ## The worker threads and the final loop of `select_word` -/

theorem worker_loop_eq (S : game_state) (st : store)
    (hwf : st.dictionary_size ≤ st.dictionary.length) (idxs : List Nat)
    (hidx : ∀ i ∈ idxs, i < st.dictionary.length) (acc : Nat × Nat) :
    worker_loop S idxs acc st = .ok (idxs.foldl (scan_step (gain S st)) acc, st) := by
  induction idxs generalizing acc with
  | nil => rfl
  | cons i idxs ih =>
    have hi : i < st.dictionary.length := hidx i (List.mem_cons_self _ _)
    have hget : st.dictionary[i]? = some st.dictionary[i] := List.getElem?_eq_getElem hi
    have hgain : gain S st i =
        feedback_patterns.foldl (min_step S st.dictionary[i] st.region) SIZE_MAX := by
      simp only [gain, hget]
    rw [worker_loop]
    simp only [hget, word_min_removed_eq_foldl S _ st hwf, List.foldl_cons]
    rw [ih (fun j hj => hidx j (List.mem_cons_of_mem _ hj))]
    simp only [scan_step, hgain]

theorem run_workers_eq (S : game_state) (st : store) (w : Nat)
    (chunk : Nat → Nat × Nat) (is : List Nat)
    (h : ∀ i ∈ is, worker S w i st = .ok (chunk i, st)) :
    run_workers S w is st = .ok (is.map chunk, st) := by
  induction is with
  | nil => rfl
  | cons i is ih =>
    rw [run_workers]
    simp only [h i (List.mem_cons_self _ _),
      ih (fun j hj => h j (List.mem_cons_of_mem _ hj)), List.map_cons]

theorem merge_scan (v : Nat → Nat) (idxs : List Nat) (acc : Nat × Nat) :
    idxs.foldl (scan_step v) acc = merge_step acc (idxs.foldl (scan_step v) (0, 0)) := by
  induction idxs generalizing acc with
  | nil => simp [merge_step]
  | cons i idxs ih =>
    rw [List.foldl_cons, List.foldl_cons, ih (scan_step v acc i), ih (scan_step v (0, 0) i)]
    generalize idxs.foldl (scan_step v) (0, 0) = X
    obtain ⟨a1, a2⟩ := acc
    obtain ⟨x1, x2⟩ := X
    simp only [scan_step, merge_step]
    split_ifs <;> first | rfl | (exfalso; omega)

theorem worker_eq (S : game_state) (st : store)
    (hwf : st.dictionary_size ≤ st.dictionary.length) (w i : Nat)
    (hov : w * i + w < SIZE_MOD) :
    worker S w i st = .ok (chunk_result (gain S st) w st.dictionary.length i, st) := by
  have h1 : (w * i) % SIZE_MOD = w * i := Nat.mod_eq_of_lt (by omega)
  have h2 : (w * i + w) % SIZE_MOD = w * i + w := Nat.mod_eq_of_lt hov
  rw [worker]
  simp only [h1, h2]
  rw [worker_loop_eq S st hwf]
  · rfl
  · intro j hj
    rw [List.mem_range'_1] at hj
    omega

theorem chunks_cover (v : Nat → Nat) (w len k : Nat) :
    ((List.range k).map (chunk_result v w len)).foldl merge_step (0, 0) =
      (List.range (min (w * k) len)).foldl (scan_step v) (0, 0) := by
  induction k with
  | zero => simp
  | succ k ih =>
    rw [List.range_succ, List.map_append, List.foldl_append, ih]
    simp only [List.map_cons, List.map_nil, List.foldl_cons, List.foldl_nil]
    rw [chunk_result, ← merge_scan, ← List.foldl_append]
    congr 1
    have hmul : w * (k + 1) = w * k + w := by ring
    rw [hmul]
    by_cases hle : w * k ≤ len
    · rw [Nat.min_eq_left hle, List.range_eq_range', List.range_eq_range']
      have := List.range'_append 0 (w * k) (min (w * k + w) len - w * k) 1
      simp only [Nat.zero_add, Nat.one_mul] at this
      rw [this]
      congr 1
      omega
    · have h1 : min (w * k) len = len := by omega
      have h2 : min (w * k + w) len = len := by omega
      have h3 : len - w * k = 0 := by omega
      rw [h1, h2, h3]
      simp

theorem wordsPerThread_bounds (len t : Nat) (ht : 1 ≤ t) :
    len ≤ (len + t - 1) / t * t ∧ (len + t - 1) / t * t ≤ len + t - 1 := by
  have h1 := Nat.div_add_mod (len + t - 1) t
  have h2 := Nat.mod_lt (len + t - 1) (by omega : t > 0)
  have h3 : (len + t - 1) / t * t = t * ((len + t - 1) / t) := Nat.mul_comm _ _
  rw [h3]
  generalize t * ((len + t - 1) / t) = p at *
  omega

theorem select_word_eq (t : Nat) (S : game_state) (st : store) (ht : 1 ≤ t)
    (hwf : st.dictionary_size ≤ st.dictionary.length)
    (hov : st.dictionary.length + t ≤ SIZE_MOD) :
    select_word t S st =
      .ok (sequential_first_max (gain S st) st.dictionary.length, st) := by
  have hw : (st.dictionary.length + t + (SIZE_MOD - 1)) % SIZE_MOD =
      st.dictionary.length + t - 1 := by
    have : st.dictionary.length + t + (SIZE_MOD - 1) =
        (st.dictionary.length + t - 1) + SIZE_MOD := by
      have : 0 < SIZE_MOD := by decide
      omega
    rw [this, Nat.add_mod_right, Nat.mod_eq_of_lt (by omega)]
  obtain ⟨hb1, hb2⟩ := wordsPerThread_bounds st.dictionary.length t ht
  rw [select_word, if_neg (by omega)]
  simp only [hw]
  have hrun := run_workers_eq S st ((st.dictionary.length + t - 1) / t)
    (chunk_result (gain S st) ((st.dictionary.length + t - 1) / t) st.dictionary.length)
    (List.range t) (by
      intro i hi
      rw [List.mem_range] at hi
      apply worker_eq S st hwf
      have : (st.dictionary.length + t - 1) / t * (i + 1) ≤
          (st.dictionary.length + t - 1) / t * t := Nat.mul_le_mul_left _ (by omega)
      have e : (st.dictionary.length + t - 1) / t * (i + 1) =
          (st.dictionary.length + t - 1) / t * i + (st.dictionary.length + t - 1) / t := by
        ring
      omega)
  simp only [hrun, select_best]
  have hfold : ((List.range t).map (chunk_result (gain S st)
      ((st.dictionary.length + t - 1) / t) st.dictionary.length)).foldl
        (fun acc pair => if pair.2 > acc.2 then pair else acc) (0, 0) =
      sequential_first_max (gain S st) st.dictionary.length := by
    have := chunks_cover (gain S st) ((st.dictionary.length + t - 1) / t)
      st.dictionary.length t
    rw [Nat.min_eq_right hb1] at this
    exact this
  rw [hfold]

theorem sequential_first_max_spec (v : Nat → Nat) (n : Nat) :
    (∀ i, i < n → v i ≤ (sequential_first_max v n).2) ∧
    (n = 0 → sequential_first_max v n = (0, 0)) ∧
    (0 < n → (sequential_first_max v n).1 < n ∧
      v (sequential_first_max v n).1 = (sequential_first_max v n).2 ∧
      ∀ j, j < (sequential_first_max v n).1 → v j < (sequential_first_max v n).2) := by
  induction n with
  | zero => simp [sequential_first_max]
  | succ n ih =>
    have hstep : sequential_first_max v (n + 1) = scan_step v (sequential_first_max v n) n := by
      simp [sequential_first_max, List.range_succ, List.foldl_append]
    obtain ⟨h1, h2, h3⟩ := ih
    rw [hstep]
    generalize sequential_first_max v n = p at *
    obtain ⟨idx, g⟩ := p
    simp only [scan_step] at *
    by_cases hgt : v n > g
    · simp only [hgt, if_true]
      refine ⟨fun i hi => ?_, fun h => absurd h (by omega), fun _ => ⟨by omega, trivial, fun j hj => ?_⟩⟩
      · rcases Nat.lt_succ_iff_lt_or_eq.mp hi with h | h
        · have := h1 i h; omega
        · subst h; exact le_refl _
      · have := h1 j hj; omega
    · simp only [hgt, if_false]
      refine ⟨fun i hi => ?_, fun h => absurd h (by omega), fun _ => ?_⟩
      · rcases Nat.lt_succ_iff_lt_or_eq.mp hi with h | h
        · exact h1 i h
        · subst h; omega
      · rcases Nat.eq_zero_or_pos n with hn | hn
        · subst hn
          have := h2 rfl
          simp only [Prod.mk.injEq] at this
          obtain ⟨rfl, rfl⟩ := this
          exact ⟨by omega, by omega, fun j hj => absurd hj (by omega)⟩
        · obtain ⟨a, b, c⟩ := h3 hn
          exact ⟨by omega, b, c⟩

theorem gain_eq (S : game_state) (st : store)
    (hwf : st.dictionary_size ≤ st.dictionary.length) (i : Nat) (e : dictionary_entry)
    (he : st.dictionary[i]? = some e) :
    word_min_removed S e st = .ok (gain S st i, st) := by
  rw [word_min_removed_eq_foldl S e st hwf]
  simp only [gain, he]

/-- C6: for every worker count `t >= 1`, on a store whose logical size does not
exceed the vector's size (and with `size + t` within `size_t`), `select_word`
returns the pair that the sequential first-maximum scan of the `word_min_removed`
values yields and leaves the store as it was: no evaluated candidate has a
larger value than the reported one, and when there is a candidate the returned
index is the lowest index whose value equals the reported one. Every other worker
count gives the same result. -/
theorem select_word_first_max (t : Nat) (S : game_state) (st : store) (ht : 1 ≤ t)
    (hwf : st.dictionary_size ≤ st.dictionary.length)
    (hov : st.dictionary.length + t ≤ SIZE_MOD) :
    ∃ idx g : Nat, select_word t S st = .ok ((idx, g), st) ∧
      (idx, g) = sequential_first_max (gain S st) st.dictionary.length ∧
      (∀ (i : Nat) (e : dictionary_entry), st.dictionary[i]? = some e →
        ∃ r : Nat, word_min_removed S e st = .ok (r, st) ∧ r ≤ g) ∧
      (0 < st.dictionary.length →
        ∃ e : dictionary_entry, st.dictionary[idx]? = some e ∧
          word_min_removed S e st = .ok (g, st) ∧
          ∀ (j : Nat) (e2 : dictionary_entry), j < idx → st.dictionary[j]? = some e2 →
            ∃ r : Nat, word_min_removed S e2 st = .ok (r, st) ∧ r < g) ∧
      (∀ t2 : Nat, 1 ≤ t2 → st.dictionary.length + t2 ≤ SIZE_MOD →
        select_word t2 S st = select_word t S st) := by
  obtain ⟨h1, _, h3⟩ := sequential_first_max_spec (gain S st) st.dictionary.length
  refine ⟨(sequential_first_max (gain S st) st.dictionary.length).1,
    (sequential_first_max (gain S st) st.dictionary.length).2,
    select_word_eq t S st ht hwf hov, rfl, ?_, ?_, ?_⟩
  · intro i e he
    have hi : i < st.dictionary.length := by
      rcases Nat.lt_or_ge i st.dictionary.length with h | h
      · exact h
      · rw [List.getElem?_eq_none h] at he; cases he
    exact ⟨_, gain_eq S st hwf i e he, h1 i hi⟩
  · intro hpos
    obtain ⟨a, b, c⟩ := h3 hpos
    refine ⟨st.dictionary[(sequential_first_max (gain S st) st.dictionary.length).1],
      List.getElem?_eq_getElem a, ?_, ?_⟩
    · rw [gain_eq S st hwf _ _ (List.getElem?_eq_getElem a), b]
    · intro j e2 hj he2
      exact ⟨_, gain_eq S st hwf j e2 he2, c j hj⟩
  · intro t2 ht2 hov2
    rw [select_word_eq t S st ht hwf hov, select_word_eq t2 S st ht2 hwf hov2]

/-- Witness for C6: three workers over the five-word store in the initial state. -/
theorem select_word_first_max_witness :
    (1 ≤ 3 ∧ scenario_store.dictionary_size ≤ scenario_store.dictionary.length ∧
      scenario_store.dictionary.length + 3 ≤ SIZE_MOD) ∧
    ∃ idx g : Nat, select_word 3 game_state.init scenario_store = .ok ((idx, g), scenario_store) ∧
      (idx, g) = sequential_first_max (gain game_state.init scenario_store)
        scenario_store.dictionary.length ∧
      (∀ (i : Nat) (e : dictionary_entry), scenario_store.dictionary[i]? = some e →
        ∃ r : Nat, word_min_removed game_state.init e scenario_store =
          .ok (r, scenario_store) ∧ r ≤ g) ∧
      (0 < scenario_store.dictionary.length →
        ∃ e : dictionary_entry, scenario_store.dictionary[idx]? = some e ∧
          word_min_removed game_state.init e scenario_store = .ok (g, scenario_store) ∧
          ∀ (j : Nat) (e2 : dictionary_entry), j < idx →
            scenario_store.dictionary[j]? = some e2 →
            ∃ r : Nat, word_min_removed game_state.init e2 scenario_store =
              .ok (r, scenario_store) ∧ r < g) ∧
      (∀ t2 : Nat, 1 ≤ t2 → scenario_store.dictionary.length + t2 ≤ SIZE_MOD →
        select_word t2 game_state.init scenario_store =
          select_word 3 game_state.init scenario_store) :=
  ⟨⟨by decide, by decide, by decide⟩,
    select_word_first_max 3 game_state.init scenario_store (by decide) (by decide) (by decide)⟩

/-- C7: for every worker count `t >= 1`, every store with at least one entry
(logical size within the vector, `size + t` within `size_t`) and every feedback
`f`: `select_word` returns an index `idx` of the vector and reports a value `g`,
and the committed `prune_dictionary(apply(S, dictionary[idx], f))` that the round
driver then runs returns a count of at least `g`. -/
theorem select_word_guarantee (t : Nat) (S : game_state) (st : store)
    (f : Fin 5 → letter_result) (ht : 1 ≤ t)
    (hwf : st.dictionary_size ≤ st.dictionary.length)
    (hov : st.dictionary.length + t ≤ SIZE_MOD) (hne : 0 < st.dictionary.length) :
    ∃ (idx g : Nat) (e : dictionary_entry) (count : Nat) (st2 : store),
      select_word t S st = .ok ((idx, g), st) ∧ st.dictionary[idx]? = some e ∧
      prune_dictionary (apply S e f) true st = .ok (count, st2) ∧ g ≤ count := by
  obtain ⟨_, _, h3⟩ := sequential_first_max_spec (gain S st) st.dictionary.length
  obtain ⟨a, b, _⟩ := h3 hne
  obtain ⟨kept, post2, hp, _, _⟩ := prune_dictionary_commit
    (apply S st.dictionary[(sequential_first_max (gain S st) st.dictionary.length).1] f) st hwf
  refine ⟨(sequential_first_max (gain S st) st.dictionary.length).1,
    (sequential_first_max (gain S st) st.dictionary.length).2, _, _, _,
    select_word_eq t S st ht hwf hov, List.getElem?_eq_getElem a, hp, ?_⟩
  rw [← b]
  simp only [gain, List.getElem?_eq_getElem a]
  exact (foldl_min_step S _ st.region feedback_patterns SIZE_MAX).2.1 f (mem_feedback_patterns f)

/-- Witness for C7: three workers, the five-word store, the initial state and the
feedback of the scenario. -/
theorem select_word_guarantee_witness :
    (1 ≤ 3 ∧ scenario_store.dictionary_size ≤ scenario_store.dictionary.length ∧
      scenario_store.dictionary.length + 3 ≤ SIZE_MOD ∧ 0 < scenario_store.dictionary.length) ∧
    ∃ (idx g : Nat) (e : dictionary_entry) (count : Nat) (st2 : store),
      select_word 3 game_state.init scenario_store = .ok ((idx, g), scenario_store) ∧
      scenario_store.dictionary[idx]? = some e ∧
      prune_dictionary (apply game_state.init e scenario_feedback) true scenario_store =
        .ok (count, st2) ∧ g ≤ count :=
  ⟨⟨by decide, by decide, by decide, by decide⟩,
    select_word_guarantee 3 game_state.init scenario_store scenario_feedback (by decide)
      (by decide) (by decide) (by decide)⟩

/-! ## The concrete scenario -/

/-- C8, counterexample: in the scenario it is not the case that the committed
prune leaves a logical region holding exactly GRAPE and PLANE with both fitting
the resulting state: GRAPE does not fit it (it holds an A). -/
theorem scenario_not_grape_plane :
    ¬ ∃ (count : Nat) (st2 : store),
      prune_dictionary (apply game_state.init CRANE scenario_feedback) true scenario_store =
        .ok (count, st2) ∧
      st2.region.Perm [GRAPE, PLANE] ∧
      word_fits_requirements GRAPE (apply game_state.init CRANE scenario_feedback) = true ∧
      word_fits_requirements PLANE (apply game_state.init CRANE scenario_feedback) = true := by
  rintro ⟨_, _, _, _, h, _⟩
  exact absurd h (by decide)

/-- C8, amended: in the scenario the committed prune returns 5 and leaves the
logical size 0, so the logical region is empty: besides SLATE and TRACE it
eliminates CRANE, GRAPE and PLANE, none of which satisfies
`word_fits_requirements` against the resulting state. -/
theorem scenario_prunes_everything :
    prune_dictionary (apply game_state.init CRANE scenario_feedback) true scenario_store =
      .ok (5, ⟨[SLATE, TRACE, GRAPE, PLANE, CRANE], 0⟩) ∧
    store.region ⟨[SLATE, TRACE, GRAPE, PLANE, CRANE], 0⟩ = [] ∧
    word_fits_requirements CRANE (apply game_state.init CRANE scenario_feedback) = false ∧
    word_fits_requirements SLATE (apply game_state.init CRANE scenario_feedback) = false ∧
    word_fits_requirements TRACE (apply game_state.init CRANE scenario_feedback) = false ∧
    word_fits_requirements GRAPE (apply game_state.init CRANE scenario_feedback) = false ∧
    word_fits_requirements PLANE (apply game_state.init CRANE scenario_feedback) = false := by
  decide

/-! ## Further properties of `prune_dictionary` and `word_min_removed` -/

theorem prune_loop_all_fit (state : game_state) (actuallyRemove : Bool) (fuel : Nat)
    (pre mid post : List dictionary_entry) (result : Nat) (hfuel : mid.length ≤ fuel)
    (hall : ∀ e ∈ mid, word_fits_requirements e state = true) :
    prune_loop state actuallyRemove fuel (pre ++ (mid ++ post)) (pre.length + mid.length)
        pre.length result =
      .ok (result, ⟨pre ++ (mid ++ post), pre.length + mid.length⟩) := by
  induction fuel generalizing pre mid with
  | zero =>
    have : mid = [] := List.eq_nil_of_length_eq_zero (by omega)
    subst this
    simp [prune_loop]
  | succ fuel ih =>
    cases mid with
    | nil => simp [prune_loop]
    | cons e m =>
      have hfit : word_fits_requirements e state = true := hall e (List.mem_cons_self _ _)
      have hlen : (pre ++ [e]).length = pre.length + 1 := by simp
      have hlist : pre ++ [e] ++ (m ++ post) = pre ++ (e :: m ++ post) := by simp
      have hih := ih (pre ++ [e]) m (by simp only [List.length_cons] at hfuel; omega)
        (fun x hx => hall x (List.mem_cons_of_mem _ hx))
      rw [hlen, hlist] at hih
      simp only [List.length_cons] at hfuel ⊢
      have e1 : pre.length + (m.length + 1) = pre.length + 1 + m.length := by omega
      rw [prune_loop, if_pos (by omega)]
      simp only [List.cons_append, getElem?_mid, hfit, Bool.not_true, Bool.false_eq_true,
        if_false]
      rw [List.cons_append] at hih
      rw [e1, hih]

theorem prune_dictionary_fixed (state : game_state) (st : store)
    (hwf : st.dictionary_size ≤ st.dictionary.length)
    (hall : ∀ e ∈ st.region, word_fits_requirements e state = true) :
    prune_dictionary state true st = .ok (0, st) := by
  obtain ⟨h1, h2⟩ := store_split st hwf
  have h3 : st.region.length ≤ st.dictionary_size := by simp at h2; omega
  have h := prune_loop_all_fit state true st.dictionary_size [] st.region
    (st.dictionary.drop st.dictionary_size) 0 h3 hall
  rw [← h1, ← h2] at h
  simpa [prune_dictionary] using h

/-- C12: on a store whose logical size does not exceed the vector's size, the
non-committing `prune_dictionary` returns the store exactly as it was, together
with the number of entries of the logical region that fail
`word_fits_requirements`; the committing run on the same store returns that
same number. -/
theorem prune_dictionary_dry_run (state : game_state) (st : store)
    (hwf : st.dictionary_size ≤ st.dictionary.length) :
    ∃ n : Nat, prune_dictionary state false st = .ok (n, st) ∧
      n = (st.region.filter (fun e => !word_fits_requirements e state)).length ∧
      ∃ st2 : store, prune_dictionary state true st = .ok (n, st2) := by
  obtain ⟨kept, post2, h, _, _⟩ := prune_dictionary_commit state st hwf
  exact ⟨_, prune_dictionary_count state st hwf, by rw [misfits, List.countP_eq_length_filter],
    _, h⟩

/-- Witness for C12: the five-word store against the state of the scenario. -/
theorem prune_dictionary_dry_run_witness :
    scenario_store.dictionary_size ≤ scenario_store.dictionary.length ∧
    ∃ n : Nat,
      prune_dictionary (apply game_state.init CRANE scenario_feedback) false scenario_store =
        .ok (n, scenario_store) ∧
      n = (scenario_store.region.filter (fun e =>
        !word_fits_requirements e (apply game_state.init CRANE scenario_feedback))).length ∧
      ∃ st2 : store,
        prune_dictionary (apply game_state.init CRANE scenario_feedback) true scenario_store =
          .ok (n, st2) :=
  ⟨by decide, prune_dictionary_dry_run (apply game_state.init CRANE scenario_feedback)
    scenario_store (by decide)⟩

/-- C13: on a store whose logical size does not exceed the vector's size, a
committed `prune_dictionary` yields a store on which a second committed run with
the same state returns 0 and changes nothing: the vector, the logical size and
hence the logical region stay as the first run left them. -/
theorem prune_dictionary_idempotent (state : game_state) (st : store)
    (hwf : st.dictionary_size ≤ st.dictionary.length) :
    ∃ (count : Nat) (st2 : store),
      prune_dictionary state true st = .ok (count, st2) ∧
      prune_dictionary state true st2 = .ok (0, st2) := by
  obtain ⟨kept, post2, h, hk, _⟩ := prune_dictionary_commit state st hwf
  refine ⟨_, _, h, ?_⟩
  apply prune_dictionary_fixed
  · simp
  · intro e he
    have hr : store.region ⟨kept ++ post2, kept.length⟩ = kept := by
      simp [store.region]
    rw [hr] at he
    have := hk.mem_iff.mp he
    simpa using (List.mem_filter.mp this).2

/-- Witness for C13: the five-word store pruned after CRANE was answered with
Correct at every position. -/
theorem prune_dictionary_idempotent_witness :
    scenario_store.dictionary_size ≤ scenario_store.dictionary.length ∧
    ∃ (count : Nat) (st2 : store),
      prune_dictionary (apply game_state.init CRANE all_correct) true scenario_store =
        .ok (count, st2) ∧
      prune_dictionary (apply game_state.init CRANE all_correct) true st2 = .ok (0, st2) :=
  ⟨by decide, prune_dictionary_idempotent (apply game_state.init CRANE all_correct)
    scenario_store (by decide)⟩

/-- C15: on a store whose logical size does not exceed the vector's size,
`word_min_removed` returns a value that is at most `dictionary_size` (and leaves
the store unchanged); so whenever `dictionary_size` is below the maximum of
`size_t`, the result is not the sentinel the function starts from. -/
theorem word_min_removed_bounded (S : game_state) (E : dictionary_entry) (st : store)
    (hwf : st.dictionary_size ≤ st.dictionary.length) :
    ∃ r : Nat, word_min_removed S E st = .ok (r, st) ∧ r ≤ st.dictionary_size ∧
      (st.dictionary_size < SIZE_MAX → r ≠ SIZE_MAX) := by
  have h := word_min_removed_le_size S E st
  exact ⟨_, word_min_removed_eq_foldl S E st hwf, h, fun hlt => by omega⟩

/-- Witness for C15: CRANE evaluated in the initial state over the five-word store. -/
theorem word_min_removed_bounded_witness :
    scenario_store.dictionary_size ≤ scenario_store.dictionary.length ∧
    ∃ r : Nat, word_min_removed game_state.init CRANE scenario_store =
        .ok (r, scenario_store) ∧ r ≤ scenario_store.dictionary_size ∧
      (scenario_store.dictionary_size < SIZE_MAX → r ≠ SIZE_MAX) :=
  ⟨by decide, word_min_removed_bounded game_state.init CRANE scenario_store (by decide)⟩

/-! ## The initial state and the count-bound invariant -/

theorem two_pow_land_ne_zero_iff (b x : Nat) : 2 ^ b &&& x ≠ 0 ↔ x.testBit b = true := by
  constructor
  · intro h
    by_contra hb
    apply h
    apply Nat.eq_of_testBit_eq
    intro j
    rw [Nat.testBit_and, Nat.testBit_two_pow, Nat.zero_testBit]
    by_cases hj : b = j
    · subst hj; simp [hb]
    · simp [hj]
  · intro hb h
    have : (2 ^ b &&& x).testBit b = true := by
      rw [Nat.testBit_and, Nat.testBit_two_pow_self, hb]; rfl
    rw [h, Nat.zero_testBit] at this
    cases this

theorem init_letter_masks (i : Fin 5) : game_state.init.letter_masks i = 2 ^ 26 - 1 := by
  simp [game_state.init, Nat.one_shiftLeft]

theorem countP_positions_le (p : Fin 5 → Bool) : positions.countP p ≤ 5 :=
  List.countP_le_length p

theorem present_count_le (E : dictionary_entry) (f : Fin 5 → letter_result) (c : Fin 26) :
    present_count E f c ≤ 5 := by
  have h := seen_count_eq_card E f c
  rw [present_count, ← h, seen_count]
  exact countP_positions_le _

theorem fits_init (w : Fin 5 → Fin 26) :
    word_fits_requirements (dictionary_entry.ctor w) game_state.init = true := by
  rw [fits_iff]
  refine ⟨fun i => ?_, fun c => ?_⟩
  · rw [ctor_letter_masks, init_letter_masks, Nat.one_shiftLeft, two_pow_land_ne_zero_iff,
      Nat.testBit_two_pow_sub_one]
    have := (w i).isLt
    simp only [decide_eq_true_eq]
    omega
  · rw [ctor_letter_counts]
    have := countP_positions_le (fun i => decide (w i = c))
    simp only [game_state.init]
    omega

/-- C16: the state built by the constructor of `game_state` has all 26 letter
bits set in every position mask and the bounds `(0, 5)` for every letter, and
every entry built by the constructor of `dictionary_entry` from five letters
satisfies `word_fits_requirements` against it. -/
theorem word_fits_initial_state (w : Fin 5 → Fin 26) :
    (∀ (i : Fin 5) (b : Nat), b < 26 → (game_state.init.letter_masks i).testBit b = true) ∧
    (∀ c : Fin 26, game_state.init.letter_counts c = (0, 5)) ∧
    word_fits_requirements (dictionary_entry.ctor w) game_state.init = true := by
  refine ⟨fun i b hb => ?_, fun c => rfl, fits_init w⟩
  rw [init_letter_masks, Nat.testBit_two_pow_sub_one]
  simp only [decide_eq_true_eq]
  exact hb

/-- C11, counterexample: the state left by CRANE with Incorrect everywhere
satisfies the invariant for every letter (the bounds of C are `(0, 0)`), and
applying CRANE with Correct everywhere to it gives the bounds `(1, 0)` for C. -/
theorem count_invariant_broken :
    (∀ d : Fin 26, count_invariant (apply game_state.init CRANE all_incorrect) d) ∧
    ¬ count_invariant (apply (apply game_state.init CRANE all_incorrect) CRANE all_correct) 2 := by
  unfold count_invariant
  decide

/-- C11, amended: the initial state satisfies `min_count <= max_count <= 5` for
every letter; and for a state `S` that satisfies it at letter `c`, `apply` keeps
`max_count[c] <= 5`, while `min_count[c] <= max_count[c]` holds afterwards exactly
when `S.min_count[c] <= k_c` in case some position holding `c` received
Incorrect, and `k_c <= S.max_count[c]` in case none did. -/
theorem count_invariant_apply (S : game_state) (E : dictionary_entry)
    (f : Fin 5 → letter_result) (c : Fin 26) (hS : count_invariant S c) :
    (∀ d : Fin 26, count_invariant game_state.init d) ∧
    ((apply S E f).letter_counts c).2 ≤ 5 ∧
    (((apply S E f).letter_counts c).1 ≤ ((apply S E f).letter_counts c).2 ↔
      if ∃ i, E.letter_indices i = c ∧ f i = .incorrect then
        (S.letter_counts c).1 ≤ present_count E f c
      else present_count E f c ≤ (S.letter_counts c).2) := by
  have hk : seen_count E f c positions = present_count E f c := seen_count_eq_card E f c
  have hi := seen_incorrect_iff E f c
  have hle := present_count_le E f c
  obtain ⟨h1, h2⟩ := hS
  refine ⟨fun d => by simp [count_invariant, game_state.init], ?_, ?_⟩
  · rw [apply_letter_counts, hk]
    by_cases h : ∃ i, E.letter_indices i = c ∧ f i = .incorrect
    · simp only [if_pos (hi.mpr h)]; exact hle
    · have h3 : ¬ seen_incorrect E f c positions = true := fun h3 => h (hi.mp h3)
      simp only [if_neg h3]; exact h2
  · rw [apply_letter_counts, hk]
    by_cases h : ∃ i, E.letter_indices i = c ∧ f i = .incorrect
    · simp only [if_pos (hi.mpr h), if_pos h]
      omega
    · have h3 : ¬ seen_incorrect E f c positions = true := fun h3 => h (hi.mp h3)
      simp only [if_neg h3, if_neg h]
      omega

/-- Witness for C11: CRANE with Incorrect everywhere applied to the initial
state, at the letter C. -/
theorem count_invariant_apply_witness :
    count_invariant game_state.init 2 ∧
    ((∀ d : Fin 26, count_invariant game_state.init d) ∧
    ((apply game_state.init CRANE all_incorrect).letter_counts 2).2 ≤ 5 ∧
    (((apply game_state.init CRANE all_incorrect).letter_counts 2).1 ≤
        ((apply game_state.init CRANE all_incorrect).letter_counts 2).2 ↔
      if ∃ i, CRANE.letter_indices i = 2 ∧ all_incorrect i = .incorrect then
        (game_state.init.letter_counts 2).1 ≤ present_count CRANE all_incorrect 2
      else present_count CRANE all_incorrect 2 ≤ (game_state.init.letter_counts 2).2)) :=
  ⟨by simp [count_invariant, game_state.init],
    count_invariant_apply game_state.init CRANE all_incorrect 2
      (by simp [count_invariant, game_state.init])⟩

/-- C14, counterexample: over the store holding only CRANE, `word_min_removed`
for CRANE in the initial state returns 0, yet the pattern with Incorrect at
every position eliminates one entry. -/
theorem word_min_removed_zero_not_all :
    ¬ (word_min_removed game_state.init CRANE crane_store = .ok (0, crane_store) →
      ∀ f : Fin 5 → letter_result,
        prune_dictionary (apply game_state.init CRANE f) false crane_store =
          .ok (0, crane_store)) := by
  intro h
  have h0 : word_min_removed game_state.init CRANE crane_store = .ok (0, crane_store) := by
    rw [word_min_removed_eq_foldl _ _ _ (by decide)]
    have hle := (foldl_min_step game_state.init CRANE crane_store.region feedback_patterns
      SIZE_MAX).2.1 all_correct (mem_feedback_patterns _)
    have hz : misfits (apply game_state.init CRANE all_correct) crane_store.region = 0 := by
      decide
    rw [hz] at hle
    rw [Nat.le_zero.mp hle]
  have h1 := h h0 all_incorrect
  exact absurd h1 (by decide)

theorem word_min_removed_zero_iff_some (S : game_state) (E : dictionary_entry) (st : store)
    (hwf : st.dictionary_size ≤ st.dictionary.length) :
    word_min_removed S E st = .ok (0, st) ↔
      ∃ f : Fin 5 → letter_result, prune_dictionary (apply S E f) false st = .ok (0, st) := by
  obtain ⟨h1, h2, h3⟩ := foldl_min_step S E st.region feedback_patterns SIZE_MAX
  rw [word_min_removed_eq_foldl _ _ _ hwf]
  constructor
  · intro h
    have hr : feedback_patterns.foldl (min_step S E st.region) SIZE_MAX = 0 := by
      simpa using h
    rcases h3 with h3 | ⟨f, _, h3⟩
    · exact absurd (hr.symm.trans h3) (by decide)
    · exact ⟨f, by rw [prune_dictionary_count _ st hwf, ← h3, hr]⟩
  · rintro ⟨f, hf⟩
    rw [prune_dictionary_count _ st hwf] at hf
    have hz : misfits (apply S E f) st.region = 0 := by simpa using hf
    have hle := h2 f (mem_feedback_patterns f)
    rw [hz] at hle
    rw [Nat.le_zero.mp hle]

/-! ## `select_word` with an unknown worker count -/

/-- C18, the failing input: when `std::thread::hardware_concurrency()` reports 0,
`select_word` divides by zero in the computation of `wordsPerThread`, for every
state and every store. -/
theorem select_word_zero_workers (S : game_state) (st : store) :
    select_word 0 S st = .error .division_by_zero := by
  simp [select_word]

/-! ## `select_word` scans the whole vector -/

theorem first_max_eq (v : Nat → Nat) (n k : Nat) (hk : k < n) (hmax : ∀ i, i < n → v i ≤ v k)
    (hfirst : ∀ j, j < k → v j < v k) : sequential_first_max v n = (k, v k) := by
  obtain ⟨h1, _, h3⟩ := sequential_first_max_spec v n
  obtain ⟨a, b, c⟩ := h3 (by omega)
  have hg : (sequential_first_max v n).2 = v k := by
    have := h1 k hk
    have := hmax _ a
    omega
  have hidx : (sequential_first_max v n).1 = k := by
    rcases Nat.lt_trichotomy (sequential_first_max v n).1 k with h | h | h
    · have := hfirst _ h; omega
    · exact h
    · have := c k h; omega
  exact Prod.ext hidx hg

theorem gain_le (S : game_state) (st : store) (i : Nat) (e : dictionary_entry)
    (f : Fin 5 → letter_result) (he : st.dictionary[i]? = some e) :
    gain S st i ≤ misfits (apply S e f) st.region := by
  simp only [gain, he]
  exact (foldl_min_step S e st.region feedback_patterns SIZE_MAX).2.1 f (mem_feedback_patterns f)

theorem round2_gain_plumb : gain round2_state round2_store 4 = 2 := by decide!

theorem round2_select (t : Nat) (ht : 1 ≤ t) (hov : 6 + t ≤ SIZE_MOD) :
    select_word t round2_state round2_store = .ok ((4, 2), round2_store) := by
  have hlen : round2_store.dictionary.length = 6 := rfl
  rw [select_word_eq t round2_state round2_store ht (by decide) (by rw [hlen]; exact hov), hlen]
  have h0 := gain_le round2_state round2_store 0 MATCH round1_feedback rfl
  have h1 := gain_le round2_state round2_store 1 HATCH round1_feedback rfl
  have h2 := gain_le round2_state round2_store 2 LATCH round1_feedback rfl
  have h3 := gain_le round2_state round2_store 3 STONE stone_feedback rfl
  have h5 := gain_le round2_state round2_store 5 WATCH round1_feedback rfl
  have m0 : misfits (apply round2_state MATCH round1_feedback) round2_store.region = 1 := by
    decide
  have m1 : misfits (apply round2_state HATCH round1_feedback) round2_store.region = 1 := by
    decide
  have m2 : misfits (apply round2_state LATCH round1_feedback) round2_store.region = 1 := by
    decide
  have m3 : misfits (apply round2_state STONE stone_feedback) round2_store.region = 0 := by
    decide
  have m5 : misfits (apply round2_state WATCH round1_feedback) round2_store.region = 0 := by
    decide
  have h4 := round2_gain_plumb
  have hfm := first_max_eq (gain round2_state round2_store) 6 4 (by omega)
    (by intro i hi; interval_cases i <;> omega)
    (by intro j hj; interval_cases j <;> omega)
  rw [h4] at hfm
  exact congrArg (fun p => Except.ok (p, round2_store)) hfm

theorem round1_gain_watch : gain game_state.init round1_store 0 = 3 := by decide!

theorem round1_select (t : Nat) (ht : 1 ≤ t) (hov : 6 + t ≤ SIZE_MOD) :
    select_word t game_state.init round1_store = .ok ((0, 3), round1_store) := by
  have hlen : round1_store.dictionary.length = 6 := rfl
  rw [select_word_eq t game_state.init round1_store ht (by decide) (by rw [hlen]; exact hov),
    hlen]
  have h1 := gain_le game_state.init round1_store 1 PLUMB all_incorrect rfl
  have h2 := gain_le game_state.init round1_store 2 LATCH round1_feedback rfl
  have h3 := gain_le game_state.init round1_store 3 HATCH round1_feedback rfl
  have h4 := gain_le game_state.init round1_store 4 STONE stone_feedback rfl
  have h5 := gain_le game_state.init round1_store 5 MATCH round1_feedback rfl
  have m1 : misfits (apply game_state.init PLUMB all_incorrect) round1_store.region = 3 := by
    decide
  have m2 : misfits (apply game_state.init LATCH round1_feedback) round1_store.region = 3 := by
    decide
  have m3 : misfits (apply game_state.init HATCH round1_feedback) round1_store.region = 3 := by
    decide
  have m4 : misfits (apply game_state.init STONE stone_feedback) round1_store.region = 2 := by
    decide
  have m5 : misfits (apply game_state.init MATCH round1_feedback) round1_store.region = 3 := by
    decide
  have h0 := round1_gain_watch
  have hfm := first_max_eq (gain game_state.init round1_store) 6 0 (by omega)
    (by intro i hi; interval_cases i <;> omega)
    (by intro j hj; omega)
  rw [h0] at hfm
  exact congrArg (fun p => Except.ok (p, round1_store)) hfm

theorem round1_prune :
    prune_dictionary round2_state true round1_store = .ok (3, round2_store) := by
  decide

/-- C17, counterexample: a game over the dictionary WATCH, PLUMB, LATCH, HATCH,
STONE, MATCH whose hidden word is LATCH. In round one `select_word` returns
index 0 (WATCH); the feedback leaves the state `round2_state` and the committed
prune leaves `round2_store`, with logical size 3. In round two `select_word`
returns index 4, the eliminated word PLUMB beyond the logical boundary. -/
theorem select_word_beyond_boundary :
    select_word 1 game_state.init round1_store = .ok ((0, 3), round1_store) ∧
    round1_store.dictionary[0]? = some WATCH ∧
    prune_dictionary (apply game_state.init WATCH round1_feedback) true round1_store =
      .ok (3, round2_store) ∧
    select_word 1 (apply game_state.init WATCH round1_feedback) round2_store =
      .ok ((4, 2), round2_store) ∧
    0 < round2_store.dictionary_size ∧ ¬ 4 < round2_store.dictionary_size :=
  ⟨round1_select 1 (by decide) (by decide), rfl, round1_prune,
    round2_select 1 (by decide) (by decide), by decide, by decide⟩

/-- C17, amended: for a worker count `t >= 1` (store invariant, `size + t` within
`size_t`), the candidates of `select_word` are the entries at all indices of the
vector, `[0, dictionary.size())`, eliminated ones included: every one of them is
valued by `word_min_removed` (which counts over the logical region only) and
bounds the reported value, and for a non-empty vector the returned index is
below `dictionary.size()` and is the lowest index whose value is the reported
one. -/
theorem select_word_scans_vector (t : Nat) (S : game_state) (st : store) (ht : 1 ≤ t)
    (hwf : st.dictionary_size ≤ st.dictionary.length)
    (hov : st.dictionary.length + t ≤ SIZE_MOD) :
    ∃ idx g : Nat, select_word t S st = .ok ((idx, g), st) ∧
      (∀ (i : Nat) (e : dictionary_entry), st.dictionary[i]? = some e →
        ∃ r : Nat, word_min_removed S e st = .ok (r, st) ∧ r ≤ g) ∧
      (0 < st.dictionary.length →
        idx < st.dictionary.length ∧
        ∃ e : dictionary_entry, st.dictionary[idx]? = some e ∧
          word_min_removed S e st = .ok (g, st) ∧
          ∀ (j : Nat) (e2 : dictionary_entry), j < idx → st.dictionary[j]? = some e2 →
            ∃ r : Nat, word_min_removed S e2 st = .ok (r, st) ∧ r < g) := by
  obtain ⟨h1, _, h3⟩ := sequential_first_max_spec (gain S st) st.dictionary.length
  refine ⟨(sequential_first_max (gain S st) st.dictionary.length).1,
    (sequential_first_max (gain S st) st.dictionary.length).2,
    select_word_eq t S st ht hwf hov, ?_, ?_⟩
  · intro i e he
    have hi : i < st.dictionary.length := by
      rcases Nat.lt_or_ge i st.dictionary.length with h | h
      · exact h
      · rw [List.getElem?_eq_none h] at he; cases he
    exact ⟨_, gain_eq S st hwf i e he, h1 i hi⟩
  · intro hpos
    obtain ⟨a, b, c⟩ := h3 hpos
    refine ⟨a, st.dictionary[(sequential_first_max (gain S st) st.dictionary.length).1],
      List.getElem?_eq_getElem a, ?_, ?_⟩
    · rw [gain_eq S st hwf _ _ (List.getElem?_eq_getElem a), b]
    · intro j e2 hj he2
      exact ⟨_, gain_eq S st hwf j e2 he2, c j hj⟩

/-- Witness for C17: one worker in round two of the six-word game. -/
theorem select_word_scans_vector_witness :
    (1 ≤ 1 ∧ round2_store.dictionary_size ≤ round2_store.dictionary.length ∧
      round2_store.dictionary.length + 1 ≤ SIZE_MOD) ∧
    ∃ idx g : Nat, select_word 1 round2_state round2_store = .ok ((idx, g), round2_store) ∧
      (∀ (i : Nat) (e : dictionary_entry), round2_store.dictionary[i]? = some e →
        ∃ r : Nat, word_min_removed round2_state e round2_store =
          .ok (r, round2_store) ∧ r ≤ g) ∧
      (0 < round2_store.dictionary.length →
        idx < round2_store.dictionary.length ∧
        ∃ e : dictionary_entry, round2_store.dictionary[idx]? = some e ∧
          word_min_removed round2_state e round2_store = .ok (g, round2_store) ∧
          ∀ (j : Nat) (e2 : dictionary_entry), j < idx →
            round2_store.dictionary[j]? = some e2 →
            ∃ r : Nat, word_min_removed round2_state e2 round2_store =
              .ok (r, round2_store) ∧ r < g) :=
  ⟨⟨by decide, by decide, by decide⟩,
    select_word_scans_vector 1 round2_state round2_store (by decide) (by decide) (by decide)⟩

/-! ## Standard scoring -/

section scoring
variable (g t : Fin 5 → Fin 26)

theorem score_run_snoc (ps : List (Fin 5)) (j : Fin 5) :
    score_run g t (ps ++ [j]) = score_step g t (score_run g t ps) j := by
  simp [score_run, List.foldl_append]

theorem score_step_other (acc : (Fin 26 → Nat) × (Fin 5 → letter_result)) (j i : Fin 5)
    (h : i ≠ j) : (score_step g t acc j).2 i = acc.2 i := by
  unfold score_step
  split_ifs <;> simp [Function.update, h]

theorem score_step_self (acc : (Fin 26 → Nat) × (Fin 5 → letter_result)) (j : Fin 5) :
    (score_step g t acc j).2 j =
      if g j = t j then .correct
      else if acc.1 (g j) > 0 then .incorrect_location else .incorrect := by
  unfold score_step
  split_ifs <;> simp

theorem score_step_rem (acc : (Fin 26 → Nat) × (Fin 5 → letter_result)) (j : Fin 5)
    (c : Fin 26) :
    (score_step g t acc j).1 c =
      if g j ≠ t j ∧ acc.1 (g j) > 0 ∧ g j = c then acc.1 c - 1 else acc.1 c := by
  unfold score_step
  by_cases h1 : g j = t j
  · simp [h1]
  · by_cases h2 : acc.1 (g j) > 0
    · by_cases h3 : g j = c
      · subst h3; simp [h1, h2]
      · have h4 : ¬ c = g j := fun h => h3 h.symm
        simp [h1, h2, h3, h4, Function.update]
    · simp [h1, h2]

theorem score_run_inv (ps : List (Fin 5)) (hps : ps.Nodup) :
    (∀ i ∈ ps, ((score_run g t ps).2 i = .correct ↔ g i = t i)) ∧
    (∀ c : Fin 26, (score_run g t ps).1 c +
        ps.countP (fun i => decide (g i = c ∧ (score_run g t ps).2 i = .incorrect_location)) =
      unmatched g t c) ∧
    (∀ c : Fin 26, (∃ i ∈ ps, g i = c ∧ (score_run g t ps).2 i = .incorrect) →
      (score_run g t ps).1 c = 0) := by
  induction ps using List.reverseRecOn with
  | nil => simp [score_run]
  | append_singleton ps j ih =>
    have hnd := List.nodup_append.mp hps
    have hj : j ∉ ps := fun h => hnd.2.2 h (List.mem_singleton_self j)
    obtain ⟨ihA, ihB, ihC⟩ := ih hnd.1
    have hold : ∀ i ∈ ps, (score_run g t (ps ++ [j])).2 i = (score_run g t ps).2 i := by
      intro i hi
      rw [score_run_snoc]
      exact score_step_other g t _ j i (fun h => hj (h ▸ hi))
    have hself := score_step_self g t (score_run g t ps) j
    rw [← score_run_snoc] at hself
    have hrem := fun c => score_step_rem g t (score_run g t ps) j c
    simp only [← score_run_snoc] at hrem
    refine ⟨?_, ?_, ?_⟩
    · intro i hi
      rcases List.mem_append.mp hi with h | h
      · rw [hold i h]; exact ihA i h
      · rw [List.mem_singleton] at h
        subst h
        rw [hself]
        split_ifs with h1 h2 <;> simp [h1]
    · intro c
      have hcongr : ps.countP (fun i => decide (g i = c ∧
            (score_run g t (ps ++ [j])).2 i = .incorrect_location)) =
          ps.countP (fun i => decide (g i = c ∧
            (score_run g t ps).2 i = .incorrect_location)) := by
        apply List.countP_congr
        intro i hi
        simp only [decide_eq_true_eq, hold i hi]
      rw [List.countP_append, hcongr, hrem c]
      have hB := ihB c
      generalize ps.countP (fun i => decide (g i = c ∧
        (score_run g t ps).2 i = .incorrect_location)) = P at hB ⊢
      simp only [List.countP_cons, List.countP_nil, hself, decide_eq_true_eq]
      by_cases h1 : g j = t j
      · simp only [h1, if_true, ne_eq, not_true_eq_false, false_and, if_false]
        simp only [reduceCtorEq, and_false, if_false]
        omega
      · by_cases h2 : (score_run g t ps).1 (g j) > 0
        · by_cases h3 : g j = c
          · subst h3
            simp only [h1, h2, if_false, if_true, ne_eq, not_false_eq_true, and_self]
            omega
          · simp only [h1, h2, h3, if_false, if_true, ne_eq, not_false_eq_true, and_false,
              false_and]
            omega
        · simp only [h1, h2, if_false, ne_eq, not_false_eq_true, false_and, and_false,
            true_and, reduceCtorEq]
          omega
    · intro c hex
      rw [hrem c]
      obtain ⟨i, hi, hgi, hfi⟩ := hex
      rcases List.mem_append.mp hi with h | h
      · rw [hold i h] at hfi
        have := ihC c ⟨i, h, hgi, hfi⟩
        split_ifs <;> omega
      · rw [List.mem_singleton] at h
        subst h
        rw [hself] at hfi
        by_cases h1 : g i = t i
        · simp [h1] at hfi
        · by_cases h2 : (score_run g t ps).1 (g i) > 0
          · simp [h1, h2] at hfi
          · rw [if_neg (by tauto)]
            rw [← hgi]; omega

end scoring

theorem countP_add_of_disjoint {α : Type} (l : List α) (p q r : α → Bool)
    (h : ∀ x ∈ l, r x = (p x || q x)) (hd : ∀ x ∈ l, ¬ (p x = true ∧ q x = true)) :
    l.countP r = l.countP p + l.countP q := by
  induction l with
  | nil => simp
  | cons a l ih =>
    have ha := h a (List.mem_cons_self _ _)
    have hda := hd a (List.mem_cons_self _ _)
    have := ih (fun x hx => h x (List.mem_cons_of_mem _ hx))
      (fun x hx => hd x (List.mem_cons_of_mem _ hx))
    simp only [List.countP_cons, this, ha]
    cases hp : p a <;> cases hq : q a <;> simp_all <;> omega

theorem letter_total_target (g t : Fin 5 → Fin 26) (c : Fin 26) :
    letter_total t c = greens g t c + unmatched g t c := by
  unfold letter_total greens unmatched
  apply countP_add_of_disjoint
  · intro i _
    by_cases h1 : t i = c <;> by_cases h2 : g i = t i <;> simp [h1, h2]
  · intro i _ h
    simp only [decide_eq_true_eq] at h
    exact h.2.2 h.1.2

theorem seen_count_split (E : dictionary_entry) (f : Fin 5 → letter_result) (c : Fin 26) :
    seen_count E f c positions =
      positions.countP (fun i => decide (E.letter_indices i = c ∧ f i = .correct)) +
      positions.countP (fun i => decide (E.letter_indices i = c ∧ f i = .incorrect_location)) := by
  unfold seen_count
  apply countP_add_of_disjoint
  · intro i _
    by_cases h1 : E.letter_indices i = c <;> cases h2 : f i <;> simp [h1]
  · intro i _ h
    simp only [decide_eq_true_eq] at h
    rw [h.1.2] at h
    cases h.2.2

theorem letter_total_guess (E : dictionary_entry) (f : Fin 5 → letter_result) (c : Fin 26) :
    letter_total E.letter_indices c =
      seen_count E f c positions +
      positions.countP (fun i => decide (E.letter_indices i = c ∧ f i = .incorrect)) := by
  unfold seen_count letter_total
  apply countP_add_of_disjoint
  · intro i _
    by_cases h1 : E.letter_indices i = c <;> cases h2 : f i <;> simp [h1]
  · intro i _ h
    simp only [decide_eq_true_eq] at h
    exact h.1.2 h.2.2

theorem countP_pos_iff_seen_incorrect (E : dictionary_entry) (f : Fin 5 → letter_result)
    (c : Fin 26) :
    0 < positions.countP (fun i => decide (E.letter_indices i = c ∧ f i = .incorrect)) ↔
      seen_incorrect E f c positions = true := by
  rw [List.countP_pos_iff, seen_incorrect, List.any_eq_true]

section score_facts
variable (G T : dictionary_entry)

theorem score_correct_iff (i : Fin 5) :
    score G T i = .correct ↔ G.letter_indices i = T.letter_indices i :=
  (score_run_inv G.letter_indices T.letter_indices positions positions_nodup).1 i
    (mem_positions i)

theorem score_seen_count (c : Fin 26) :
    seen_count G (score G T) c positions + (score_run G.letter_indices T.letter_indices
      positions).1 c = letter_total T.letter_indices c := by
  have hB := (score_run_inv G.letter_indices T.letter_indices positions positions_nodup).2.1 c
  have hg : positions.countP (fun i => decide (G.letter_indices i = c ∧
      score G T i = .correct)) = greens G.letter_indices T.letter_indices c := by
    unfold greens
    apply List.countP_congr
    intro i _
    simp only [decide_eq_true_eq, score_correct_iff]
  rw [seen_count_split, hg, letter_total_target G.letter_indices T.letter_indices c]
  have : (score_run G.letter_indices T.letter_indices positions).2 = score G T := rfl
  rw [this] at hB
  omega

theorem score_seen_count_le (c : Fin 26) :
    seen_count G (score G T) c positions ≤ letter_total T.letter_indices c := by
  have := score_seen_count G T c
  omega

theorem score_seen_incorrect (c : Fin 26)
    (h : seen_incorrect G (score G T) c positions = true) :
    seen_count G (score G T) c positions = letter_total T.letter_indices c := by
  have h1 := score_seen_count G T c
  have hC := (score_run_inv G.letter_indices T.letter_indices positions positions_nodup).2.2 c
  have h2 : (score_run G.letter_indices T.letter_indices positions).1 c = 0 := by
    apply hC
    obtain ⟨i, hi, hp⟩ := (seen_incorrect_iff G (score G T) c).mp h
    exact ⟨i, mem_positions i, hi, hp⟩
  omega

end score_facts

theorem ctor_letter_indices_eq (w : Fin 5 → Fin 26) :
    (dictionary_entry.ctor w).letter_indices = w :=
  funext (ctor_letter_indices w)

theorem ctor_letter_counts_total (w : Fin 5 → Fin 26) (c : Fin 26) :
    (dictionary_entry.ctor w).letter_counts c = letter_total w c :=
  ctor_letter_counts w c

theorem not32_two_pow_testBit (c b : Nat) (hb : b < 32) :
    (not32 (2 ^ c)).testBit b = !decide (c = b) := by
  have h32 : (0xFFFFFFFF : Nat) = 2 ^ 32 - 1 := by norm_num
  rw [not32, Nat.testBit_xor, h32, Nat.testBit_two_pow_sub_one, Nat.testBit_two_pow]
  simp [hb]

theorem mask_keeps_other (m g t : Nat) (ht : t < 32) (hne : g ≠ t) (h : 2 ^ t &&& m ≠ 0) :
    2 ^ t &&& (m &&& not32 (2 ^ g)) ≠ 0 := by
  rw [two_pow_land_ne_zero_iff] at h ⊢
  rw [Nat.testBit_and, h, not32_two_pow_testBit g t ht]
  simp [hne]

theorem mask_drops_same (m t : Nat) (ht : t < 32) : 2 ^ t &&& (m &&& not32 (2 ^ t)) = 0 := by
  by_contra h
  rw [← ne_eq, two_pow_land_ne_zero_iff, Nat.testBit_and, not32_two_pow_testBit t t ht] at h
  simp at h

theorem two_pow_land_two_pow (a b : Nat) (h : 2 ^ a &&& 2 ^ b ≠ 0) : b = a := by
  rw [two_pow_land_ne_zero_iff, Nat.testBit_two_pow] at h
  simpa using h

theorem score_keeps_fit (S : game_state) (gw tw : Fin 5 → Fin 26)
    (h : word_fits_requirements (dictionary_entry.ctor tw) S = true) :
    word_fits_requirements (dictionary_entry.ctor tw)
      (apply S (dictionary_entry.ctor gw)
        (score (dictionary_entry.ctor gw) (dictionary_entry.ctor tw))) = true := by
  rw [fits_iff] at h ⊢
  obtain ⟨hm, hc⟩ := h
  refine ⟨fun i => ?_, fun c => ?_⟩
  · have hcorr := score_correct_iff (dictionary_entry.ctor gw) (dictionary_entry.ctor tw) i
    rw [ctor_letter_indices, ctor_letter_indices] at hcorr
    have hmi := hm i
    rw [ctor_letter_masks, Nat.one_shiftLeft] at hmi
    have ht32 : (tw i).val < 32 := by have := (tw i).isLt; omega
    rw [apply_letter_masks, ctor_letter_masks, Nat.one_shiftLeft]
    cases hf : score (dictionary_entry.ctor gw) (dictionary_entry.ctor tw) i
    · have hne : (gw i).val ≠ (tw i).val := by
        intro he
        have := hcorr.mpr (Fin.ext he)
        rw [hf] at this; cases this
      simp only [mask_after, hf, ctor_letter_masks, Nat.one_shiftLeft]
      exact mask_keeps_other _ _ _ ht32 hne hmi
    · have hne : (gw i).val ≠ (tw i).val := by
        intro he
        have := hcorr.mpr (Fin.ext he)
        rw [hf] at this; cases this
      simp only [mask_after, hf, ctor_letter_masks, Nat.one_shiftLeft]
      exact mask_keeps_other _ _ _ ht32 hne hmi
    · have he : gw i = tw i := hcorr.mp hf
      simp only [mask_after, hf, ctor_letter_masks, Nat.one_shiftLeft, he, Nat.and_self]
      exact Nat.pos_iff_ne_zero.mp (Nat.two_pow_pos _)
  · have hcc := hc c
    have hle := score_seen_count_le (dictionary_entry.ctor gw) (dictionary_entry.ctor tw) c
    have hinc := score_seen_incorrect (dictionary_entry.ctor gw) (dictionary_entry.ctor tw) c
    rw [ctor_letter_indices_eq tw] at hle hinc
    rw [ctor_letter_counts_total] at hcc ⊢
    rw [apply_letter_counts]
    by_cases hs : seen_incorrect (dictionary_entry.ctor gw)
        (score (dictionary_entry.ctor gw) (dictionary_entry.ctor tw)) c positions = true
    · have := hinc hs
      simp only [if_pos hs]
      omega
    · simp only [if_neg hs]
      omega

theorem exists_fit_of_misfits_lt (state : game_state) (l : List dictionary_entry)
    (h : misfits state l < l.length) :
    ∃ T ∈ l, word_fits_requirements T state = true := by
  have hlen := length_filter_fits state l
  have hpos : 0 < (l.filter (fun e => word_fits_requirements e state)).length := by omega
  obtain ⟨T, hT⟩ := List.exists_mem_of_length_pos hpos
  exact ⟨T, (List.mem_filter.mp hT).1, (List.mem_filter.mp hT).2⟩

theorem mask_after_eq_of_correct_iff (S : game_state) (E : dictionary_entry)
    (f f2 : Fin 5 → letter_result) (i : Fin 5) (h : f i = .correct ↔ f2 i = .correct) :
    mask_after S E f i = mask_after S E f2 i := by
  unfold mask_after
  cases h1 : f i <;> cases h2 : f2 i <;> simp_all

theorem apply_eq_of_fits (S : game_state) (ew tw : Fin 5 → Fin 26) (f : Fin 5 → letter_result)
    (h : word_fits_requirements (dictionary_entry.ctor tw)
      (apply S (dictionary_entry.ctor ew) f) = true) :
    apply S (dictionary_entry.ctor ew) f =
      apply S (dictionary_entry.ctor ew)
        (score (dictionary_entry.ctor ew) (dictionary_entry.ctor tw)) := by
  rw [fits_iff] at h
  obtain ⟨hm, hc⟩ := h
  have hmasks : ∀ i, (apply S (dictionary_entry.ctor ew) f).letter_masks i =
      (apply S (dictionary_entry.ctor ew)
        (score (dictionary_entry.ctor ew) (dictionary_entry.ctor tw))).letter_masks i := by
    intro i
    have hcorr := score_correct_iff (dictionary_entry.ctor ew) (dictionary_entry.ctor tw) i
    rw [ctor_letter_indices, ctor_letter_indices] at hcorr
    have hmi := hm i
    rw [apply_letter_masks, ctor_letter_masks, Nat.one_shiftLeft] at hmi
    have ht32 : (tw i).val < 32 := by have := (tw i).isLt; omega
    rw [apply_letter_masks, apply_letter_masks]
    apply mask_after_eq_of_correct_iff
    rw [hcorr]
    constructor
    · intro hf
      simp only [mask_after, hf, ctor_letter_masks, Nat.one_shiftLeft] at hmi
      exact Fin.ext (two_pow_land_two_pow _ _ hmi)
    · intro he
      by_contra hf
      have hma : mask_after S (dictionary_entry.ctor ew) f i =
          S.letter_masks i &&& not32 (2 ^ (tw i).val) := by
        unfold mask_after
        cases hfi : f i
        · simp only [ctor_letter_masks, Nat.one_shiftLeft, he]
        · simp only [ctor_letter_masks, Nat.one_shiftLeft, he]
        · exact absurd hfi hf
      rw [hma] at hmi
      exact hmi (mask_drops_same _ _ ht32)
  have hcounts : ∀ c, (apply S (dictionary_entry.ctor ew) f).letter_counts c =
      (apply S (dictionary_entry.ctor ew)
        (score (dictionary_entry.ctor ew) (dictionary_entry.ctor tw))).letter_counts c := by
    intro c
    have hcc := hc c
    rw [ctor_letter_counts_total, apply_letter_counts] at hcc
    have hle := score_seen_count_le (dictionary_entry.ctor ew) (dictionary_entry.ctor tw) c
    have hinc := score_seen_incorrect (dictionary_entry.ctor ew) (dictionary_entry.ctor tw) c
    rw [ctor_letter_indices_eq tw] at hle hinc
    have hg1 := letter_total_guess (dictionary_entry.ctor ew) f c
    have hg2 := letter_total_guess (dictionary_entry.ctor ew)
      (score (dictionary_entry.ctor ew) (dictionary_entry.ctor tw)) c
    have hp1 := countP_pos_iff_seen_incorrect (dictionary_entry.ctor ew) f c
    have hp2 := countP_pos_iff_seen_incorrect (dictionary_entry.ctor ew)
      (score (dictionary_entry.ctor ew) (dictionary_entry.ctor tw)) c
    rw [apply_letter_counts, apply_letter_counts]
    by_cases hs1 : seen_incorrect (dictionary_entry.ctor ew) f c positions = true <;>
      by_cases hs2 : seen_incorrect (dictionary_entry.ctor ew)
        (score (dictionary_entry.ctor ew) (dictionary_entry.ctor tw)) c positions = true
    · have := hinc hs2
      have := hp1.mpr hs1
      simp only [if_pos hs1] at hcc
      simp only [if_pos hs1, if_pos hs2, Prod.mk.injEq]
      omega
    · exfalso
      have := hp1.mpr hs1
      have : ¬ 0 < positions.countP (fun i => decide ((dictionary_entry.ctor ew).letter_indices
          i = c ∧ score (dictionary_entry.ctor ew) (dictionary_entry.ctor tw) i =
            .incorrect)) := fun h0 => hs2 (hp2.mp h0)
      simp only [if_pos hs1] at hcc
      omega
    · exfalso
      have := hinc hs2
      have := hp2.mpr hs2
      have : ¬ 0 < positions.countP (fun i => decide ((dictionary_entry.ctor ew).letter_indices
          i = c ∧ f i = .incorrect)) := fun h0 => hs1 (hp1.mp h0)
      simp only [if_neg hs1] at hcc
      omega
    · have : ¬ 0 < positions.countP (fun i => decide ((dictionary_entry.ctor ew).letter_indices
          i = c ∧ f i = .incorrect)) := fun h0 => hs1 (hp1.mp h0)
      have : ¬ 0 < positions.countP (fun i => decide ((dictionary_entry.ctor ew).letter_indices
          i = c ∧ score (dictionary_entry.ctor ew) (dictionary_entry.ctor tw) i =
            .incorrect)) := fun h0 => hs2 (hp2.mp h0)
      simp only [if_neg hs1, if_neg hs2, Prod.mk.injEq, and_true]
      omega
  have hstruct : ∀ A B : game_state, A.letter_masks = B.letter_masks →
      A.letter_counts = B.letter_counts → A = B := by
    intro A B h1 h2
    cases A; cases B
    simp only at h1 h2
    rw [h1, h2]
  exact hstruct _ _ (funext hmasks) (funext hcounts)

/-- C19: for a guess `G` and a target `T` built by the constructor and a state
`S` that `T` fits, `T` still fits `apply(S, G, f)` when `f` is the standard
scoring of `G` against `T`; hence on any store whose logical size does not
exceed the vector's size, a committed prune with that state keeps `T` in the
logical region if it was there. -/
theorem true_answer_never_pruned (S : game_state) (gw tw : Fin 5 → Fin 26)
    (hfit : word_fits_requirements (dictionary_entry.ctor tw) S = true) :
    word_fits_requirements (dictionary_entry.ctor tw)
      (apply S (dictionary_entry.ctor gw)
        (score (dictionary_entry.ctor gw) (dictionary_entry.ctor tw))) = true ∧
    ∀ st : store, st.dictionary_size ≤ st.dictionary.length →
      dictionary_entry.ctor tw ∈ st.region →
      ∃ (count : Nat) (st2 : store),
        prune_dictionary (apply S (dictionary_entry.ctor gw)
          (score (dictionary_entry.ctor gw) (dictionary_entry.ctor tw))) true st =
            .ok (count, st2) ∧
        dictionary_entry.ctor tw ∈ st2.region := by
  have hkeep := score_keeps_fit S gw tw hfit
  refine ⟨hkeep, fun st hwf hmem => ?_⟩
  obtain ⟨kept, post2, h, hk, _⟩ := prune_dictionary_commit
    (apply S (dictionary_entry.ctor gw)
      (score (dictionary_entry.ctor gw) (dictionary_entry.ctor tw))) st hwf
  refine ⟨_, _, h, ?_⟩
  have hr : store.region ⟨kept ++ post2, kept.length⟩ = kept := by simp [store.region]
  rw [hr]
  exact hk.mem_iff.mpr (List.mem_filter.mpr ⟨hmem, hkeep⟩)

/-- Witness for C19: the guess WATCH against the target LATCH in the initial
state. -/
theorem true_answer_never_pruned_witness :
    word_fits_requirements (dictionary_entry.ctor ![11, 0, 19, 2, 7]) game_state.init = true ∧
    (word_fits_requirements (dictionary_entry.ctor ![11, 0, 19, 2, 7])
      (apply game_state.init (dictionary_entry.ctor ![22, 0, 19, 2, 7])
        (score (dictionary_entry.ctor ![22, 0, 19, 2, 7])
          (dictionary_entry.ctor ![11, 0, 19, 2, 7]))) = true ∧
    ∀ st : store, st.dictionary_size ≤ st.dictionary.length →
      dictionary_entry.ctor ![11, 0, 19, 2, 7] ∈ st.region →
      ∃ (count : Nat) (st2 : store),
        prune_dictionary (apply game_state.init (dictionary_entry.ctor ![22, 0, 19, 2, 7])
          (score (dictionary_entry.ctor ![22, 0, 19, 2, 7])
            (dictionary_entry.ctor ![11, 0, 19, 2, 7]))) true st = .ok (count, st2) ∧
        dictionary_entry.ctor ![11, 0, 19, 2, 7] ∈ st2.region) :=
  ⟨by decide, true_answer_never_pruned game_state.init ![22, 0, 19, 2, 7] ![11, 0, 19, 2, 7]
    (by decide)⟩

/-- C20: for a candidate `E` built by the constructor and a store with a
non-empty logical region of entries built by the constructor (logical size a
`size_t` within the vector), `word_min_removed(S, E)` is the minimum of the
non-committing prune counts taken over the scorings of `E` against the targets
`T` of the logical region only: no such target gives less, and some target of the
region gives exactly the returned value. -/
theorem word_min_removed_feasible (S : game_state) (ew : Fin 5 → Fin 26) (st : store)
    (hwf : st.dictionary_size ≤ st.dictionary.length) (hsize : st.dictionary_size ≤ SIZE_MAX)
    (hne : 0 < st.dictionary_size)
    (hvalid : ∀ T ∈ st.region, ∃ tw : Fin 5 → Fin 26, T = dictionary_entry.ctor tw) :
    ∃ r : Nat, word_min_removed S (dictionary_entry.ctor ew) st = .ok (r, st) ∧
      (∀ T ∈ st.region, ∃ n : Nat,
        prune_dictionary (apply S (dictionary_entry.ctor ew)
          (score (dictionary_entry.ctor ew) T)) false st = .ok (n, st) ∧ r ≤ n) ∧
      (∃ T ∈ st.region,
        prune_dictionary (apply S (dictionary_entry.ctor ew)
          (score (dictionary_entry.ctor ew) T)) false st = .ok (r, st)) := by
  obtain ⟨_, h2, h3⟩ :=
    foldl_min_step S (dictionary_entry.ctor ew) st.region feedback_patterns SIZE_MAX
  have hrl : st.region.length = st.dictionary_size := by
    simp [store.region, List.length_take, hwf]
  obtain ⟨T0, hT0⟩ := List.exists_mem_of_length_pos (by omega : 0 < st.region.length)
  refine ⟨_, word_min_removed_eq_foldl S _ st hwf, ?_, ?_⟩
  · intro T _
    exact ⟨_, prune_dictionary_count _ st hwf, h2 _ (mem_feedback_patterns _)⟩
  · have hfull : st.region.length ≤
        feedback_patterns.foldl (min_step S (dictionary_entry.ctor ew) st.region) SIZE_MAX →
        ∃ T ∈ st.region, prune_dictionary (apply S (dictionary_entry.ctor ew)
          (score (dictionary_entry.ctor ew) T)) false st =
            .ok (feedback_patterns.foldl (min_step S (dictionary_entry.ctor ew) st.region)
              SIZE_MAX, st) := by
      intro hge
      refine ⟨T0, hT0, ?_⟩
      have ha := h2 (score (dictionary_entry.ctor ew) T0) (mem_feedback_patterns _)
      have hb := misfits_le_length (apply S (dictionary_entry.ctor ew)
        (score (dictionary_entry.ctor ew) T0)) st.region
      rw [prune_dictionary_count _ st hwf]
      have : misfits (apply S (dictionary_entry.ctor ew)
          (score (dictionary_entry.ctor ew) T0)) st.region =
          feedback_patterns.foldl (min_step S (dictionary_entry.ctor ew) st.region)
            SIZE_MAX := by omega
      rw [this]
    rcases h3 with h3 | ⟨f, _, h3⟩
    · exact hfull (by omega)
    · rcases Nat.lt_or_ge (misfits (apply S (dictionary_entry.ctor ew) f) st.region)
        st.region.length with hlt | hge
      · obtain ⟨T, hT, hTfit⟩ := exists_fit_of_misfits_lt _ _ hlt
        obtain ⟨tw, rfl⟩ := hvalid T hT
        refine ⟨_, hT, ?_⟩
        rw [prune_dictionary_count _ st hwf, ← apply_eq_of_fits S ew tw f hTfit, h3]
      · exact hfull (by omega)

/-- Witness for C20: CRANE evaluated in the initial state over the five-word
store. -/
theorem word_min_removed_feasible_witness :
    (scenario_store.dictionary_size ≤ scenario_store.dictionary.length ∧
      scenario_store.dictionary_size ≤ SIZE_MAX ∧ 0 < scenario_store.dictionary_size ∧
      ∀ T ∈ scenario_store.region, ∃ tw : Fin 5 → Fin 26, T = dictionary_entry.ctor tw) ∧
    ∃ r : Nat, word_min_removed game_state.init (dictionary_entry.ctor ![2, 17, 0, 13, 4])
        scenario_store = .ok (r, scenario_store) ∧
      (∀ T ∈ scenario_store.region, ∃ n : Nat,
        prune_dictionary (apply game_state.init (dictionary_entry.ctor ![2, 17, 0, 13, 4])
          (score (dictionary_entry.ctor ![2, 17, 0, 13, 4]) T)) false scenario_store =
            .ok (n, scenario_store) ∧ r ≤ n) ∧
      (∃ T ∈ scenario_store.region,
        prune_dictionary (apply game_state.init (dictionary_entry.ctor ![2, 17, 0, 13, 4])
          (score (dictionary_entry.ctor ![2, 17, 0, 13, 4]) T)) false scenario_store =
            .ok (r, scenario_store)) :=
  ⟨⟨by decide, by decide, by decide, by
      intro T hT
      simp only [scenario_store, store.region, List.take, List.mem_cons, List.mem_singleton,
        List.not_mem_nil, or_false] at hT
      rcases hT with h | h | h | h | h <;> exact ⟨_, h.trans rfl⟩⟩,
    word_min_removed_feasible game_state.init ![2, 17, 0, 13, 4] scenario_store (by decide)
      (by decide) (by decide) (by
      intro T hT
      simp only [scenario_store, store.region, List.take, List.mem_cons, List.mem_singleton,
        List.not_mem_nil, or_false] at hT
      rcases hT with h | h | h | h | h <;> exact ⟨_, h.trans rfl⟩)⟩

theorem select_word_no_candidates (t : Nat) (S : game_state) (st : store) (ht : 1 ≤ t)
    (hwf : st.dictionary_size ≤ st.dictionary.length)
    (hov : st.dictionary.length + t ≤ SIZE_MOD) (hzero : st.dictionary_size = 0) :
    select_word t S st = .ok ((0, 0), st) := by
  rw [select_word_eq t S st ht hwf hov]
  have hg : ∀ i, gain S st i = 0 := by
    intro i
    unfold gain
    split
    · have := word_min_removed_le_size S ‹_› st
      omega
    · rfl
  obtain ⟨h1, h2, h3⟩ := sequential_first_max_spec (gain S st) st.dictionary.length
  rcases Nat.eq_zero_or_pos st.dictionary.length with hl | hl
  · rw [h2 hl]
  · obtain ⟨a, b, c⟩ := h3 hl
    have hb : (sequential_first_max (gain S st) st.dictionary.length).2 = 0 := by
      rw [← b, hg]
    have ha : (sequential_first_max (gain S st) st.dictionary.length).1 = 0 := by
      by_contra hne
      have := c 0 (by omega)
      omega
    have : sequential_first_max (gain S st) st.dictionary.length = (0, 0) := Prod.ext ha hb
    rw [this]

/-! ## When `word_min_removed` returns 0 -/

theorem word_min_removed_zero_iff_feasible (S : game_state) (ew : Fin 5 → Fin 26) (st : store)
    (hwf : st.dictionary_size ≤ st.dictionary.length)
    (hvalid : ∀ T ∈ st.region, ∃ tw : Fin 5 → Fin 26, T = dictionary_entry.ctor tw) :
    word_min_removed S (dictionary_entry.ctor ew) st = .ok (0, st) ↔
      ∀ T ∈ st.region,
        prune_dictionary (apply S (dictionary_entry.ctor ew)
          (score (dictionary_entry.ctor ew) T)) false st = .ok (0, st) := by
  constructor
  · intro h T hT
    obtain ⟨f, hf⟩ := (word_min_removed_zero_iff_some S _ st hwf).mp h
    rw [prune_dictionary_count _ st hwf] at hf
    have hz : misfits (apply S (dictionary_entry.ctor ew) f) st.region = 0 := by simpa using hf
    have hfit : word_fits_requirements T (apply S (dictionary_entry.ctor ew) f) = true := by
      rw [misfits, List.countP_eq_zero] at hz
      simpa using hz T hT
    obtain ⟨tw, rfl⟩ := hvalid T hT
    rw [prune_dictionary_count _ st hwf, ← apply_eq_of_fits S ew tw f hfit, hz]
  · intro h
    rcases List.eq_nil_or_concat st.region with hnil | ⟨l, T0, hl⟩
    · have hle := word_min_removed_le_size S (dictionary_entry.ctor ew) st
      have hr : st.region.length = st.dictionary_size := by
        simp [store.region, List.length_take, hwf]
      rw [hnil] at hr
      simp only [List.length_nil] at hr
      have hz : feedback_patterns.foldl (min_step S (dictionary_entry.ctor ew) st.region)
          SIZE_MAX = 0 := by omega
      rw [word_min_removed_eq_foldl _ _ _ hwf, hz]
    · have hT0 : T0 ∈ st.region := by rw [hl]; simp
      exact (word_min_removed_zero_iff_some S _ st hwf).mpr ⟨_, h T0 hT0⟩

/-- C14, amended: on a store whose logical size does not exceed the vector's
size and whose logical entries are built by the constructor, `word_min_removed`
for a constructor-built candidate `E` in the initial state returns 0 only if
every feedback pattern that can occur, the standard scoring of `E` against an
entry `T` of the logical region, eliminates nothing (and conversely). For any
candidate it returns 0 exactly when at least one of the 243 enumerated patterns
eliminates nothing. -/
theorem word_min_removed_zero_iff (ew : Fin 5 → Fin 26) (st : store)
    (hwf : st.dictionary_size ≤ st.dictionary.length)
    (hvalid : ∀ T ∈ st.region, ∃ tw : Fin 5 → Fin 26, T = dictionary_entry.ctor tw) :
    (word_min_removed game_state.init (dictionary_entry.ctor ew) st = .ok (0, st) ↔
      ∀ T ∈ st.region,
        prune_dictionary (apply game_state.init (dictionary_entry.ctor ew)
          (score (dictionary_entry.ctor ew) T)) false st = .ok (0, st)) ∧
    (∀ E : dictionary_entry,
      word_min_removed game_state.init E st = .ok (0, st) ↔
        ∃ f : Fin 5 → letter_result,
          prune_dictionary (apply game_state.init E f) false st = .ok (0, st)) :=
  ⟨word_min_removed_zero_iff_feasible game_state.init ew st hwf hvalid,
    fun E => word_min_removed_zero_iff_some game_state.init E st hwf⟩

/-- Witness for C14: CRANE over the store holding only CRANE. -/
theorem word_min_removed_zero_iff_witness :
    (crane_store.dictionary_size ≤ crane_store.dictionary.length ∧
      ∀ T ∈ crane_store.region, ∃ tw : Fin 5 → Fin 26, T = dictionary_entry.ctor tw) ∧
    ((word_min_removed game_state.init (dictionary_entry.ctor ![2, 17, 0, 13, 4]) crane_store =
        .ok (0, crane_store) ↔
      ∀ T ∈ crane_store.region,
        prune_dictionary (apply game_state.init (dictionary_entry.ctor ![2, 17, 0, 13, 4])
          (score (dictionary_entry.ctor ![2, 17, 0, 13, 4]) T)) false crane_store =
            .ok (0, crane_store)) ∧
    (∀ E : dictionary_entry,
      word_min_removed game_state.init E crane_store = .ok (0, crane_store) ↔
        ∃ f : Fin 5 → letter_result,
          prune_dictionary (apply game_state.init E f) false crane_store =
            .ok (0, crane_store))) :=
  ⟨⟨by decide, by
      intro T hT
      simp only [crane_store, store.region, List.take, List.mem_singleton] at hT
      exact ⟨_, hT.trans rfl⟩⟩,
    word_min_removed_zero_iff ![2, 17, 0, 13, 4] crane_store (by decide) (by
      intro T hT
      simp only [crane_store, store.region, List.take, List.mem_singleton] at hT
      exact ⟨_, hT.trans rfl⟩)⟩

end WordleSolver
